import Mathlib

/-!
Verification of the `emerge` library (src/emerge.js): a shallow embedding of
its value model and operations, and proofs settling the specification claims.

JS values are modelled by `Val`: primitives, arrays (`list`), plain objects
(`dict`) and opaque objects/functions (`atom`).  Every `list`/`dict`/`atom`
node carries a numeric id modelling its heap address, so that reference
identity (`===`) is structural equality of id-tagged trees; values freshly
allocated by the library carry id 0.  "Returns the same reference" is then
literal equality of tagged trees, and a rebuilt copy is distinguishable from
the original whenever the original's id differs from 0.

Modelling boundaries (stated once here):
- numbers are rationals (JS floats are not modelled; `NaN` is its own
  primitive, infinities are not modelled);
- object keys are strings in insertion order (symbol keys and the JS
  integer-key reordering are not modelled; the claims only use
  non-numeric string keys);
- property access covers own data properties (dict entries, array elements,
  array/string `length`, string characters); prototype-inherited properties
  read as `undefined`;
- `String(value)` for non-integral rationals and for opaque objects is
  approximated (never reached by the claims);
- throwing is modelled by `Except Err`, with the two distinct throw sites of
  the source (`validate` and the bounds check of `validateBounds`) mapped to
  the two `Err` constructors.
-/

namespace Emerge

/-- Primitive JS values: numbers (rationals, with NaN set apart), strings,
booleans, null and undefined. -/
inductive Prim where
  | num (q : Rat)
  | nan
  | str (s : String)
  | bool (b : Bool)
  | null
  | undefined
deriving DecidableEq, Repr

/-- JS values: primitives, arrays, plain dicts and opaque objects, the last
three tagged with an id modelling their heap address. -/
inductive Val where
  | prim (p : Prim)
  | list (id : Nat) (items : List Val)
  | dict (id : Nat) (entries : List (String × Val))
  | atom (id : Nat)
deriving Repr

mutual

/-- Structural (id-included) boolean equality on values. -/
def valBeq : Val → Val → Bool
  | .prim p, .prim q => p == q
  | .list i xs, .list j ys => i == j && listBeq xs ys
  | .dict i xs, .dict j ys => i == j && entriesBeq xs ys
  | .atom i, .atom j => i == j
  | _, _ => false

/-- Structural equality on item lists. -/
def listBeq : List Val → List Val → Bool
  | [], [] => true
  | x :: xs, y :: ys => valBeq x y && listBeq xs ys
  | _, _ => false

/-- Structural equality on entry lists. -/
def entriesBeq : List (String × Val) → List (String × Val) → Bool
  | [], [] => true
  | (k, x) :: xs, (l, y) :: ys => k == l && valBeq x y && entriesBeq xs ys
  | _, _ => false

end

mutual

theorem valBeq_iff : ∀ a b : Val, valBeq a b = true ↔ a = b
  | .prim _, .prim _ => by simp [valBeq]
  | .prim _, .list _ _ => by simp [valBeq]
  | .prim _, .dict _ _ => by simp [valBeq]
  | .prim _, .atom _ => by simp [valBeq]
  | .list _ _, .prim _ => by simp [valBeq]
  | .list _ xs, .list _ ys => by simp [valBeq, listBeq_iff xs ys]
  | .list _ _, .dict _ _ => by simp [valBeq]
  | .list _ _, .atom _ => by simp [valBeq]
  | .dict _ _, .prim _ => by simp [valBeq]
  | .dict _ _, .list _ _ => by simp [valBeq]
  | .dict _ xs, .dict _ ys => by simp [valBeq, entriesBeq_iff xs ys]
  | .dict _ _, .atom _ => by simp [valBeq]
  | .atom _, .prim _ => by simp [valBeq]
  | .atom _, .list _ _ => by simp [valBeq]
  | .atom _, .dict _ _ => by simp [valBeq]
  | .atom _, .atom _ => by simp [valBeq]

theorem listBeq_iff : ∀ xs ys : List Val, listBeq xs ys = true ↔ xs = ys
  | [], [] => by simp [listBeq]
  | [], _ :: _ => by simp [listBeq]
  | _ :: _, [] => by simp [listBeq]
  | x :: xs, y :: ys => by simp [listBeq, valBeq_iff x y, listBeq_iff xs ys]

theorem entriesBeq_iff : ∀ xs ys : List (String × Val), entriesBeq xs ys = true ↔ xs = ys
  | [], [] => by simp [entriesBeq]
  | [], _ :: _ => by simp [entriesBeq]
  | _ :: _, [] => by simp [entriesBeq]
  | (k, x) :: xs, (l, y) :: ys => by
      simp [entriesBeq, valBeq_iff x y, entriesBeq_iff xs ys, Prod.ext_iff]

end

instance : DecidableEq Val := fun a b =>
  decidable_of_iff (valBeq a b = true) (valBeq_iff a b)

/-- Whether a value is the NaN primitive (used to carve NaN out of `===`). -/
def isNaNPrim : Val → Bool
  | .prim .nan => true
  | _ => false

/-- JS strict equality `===`: equality of primitives / references, except that
NaN is not `===`-equal to itself. -/
def strictEq (a b : Val) : Bool := valBeq a b && !(isNaNPrim a)

/-- Source `isNaN(value)`, defined there as `value !== value`. -/
def isNaNJs (v : Val) : Bool := !(strictEq v v)

/-- Source `is(one, other)`: `one === other || (isNaN(one) && isNaN(other))`. -/
def is (one other : Val) : Bool := strictEq one other || (isNaNJs one && isNaNJs other)

theorem isNaNJs_eq (v : Val) : isNaNJs v = isNaNPrim v := by
  have h : valBeq v v = true := (valBeq_iff v v).mpr rfl
  simp [isNaNJs, strictEq, h]

/-- The modelled `is` agrees with equality of tagged trees: the NaN exception
of `===` is exactly repaired by the NaN clause of `is`. -/
theorem is_iff {a b : Val} : is a b = true ↔ a = b := by
  constructor
  · intro h
    rcases Bool.or_eq_true_iff.mp h with h1 | h1
    · exact (valBeq_iff a b).mp (Bool.and_eq_true_iff.mp h1).1
    · rcases Bool.and_eq_true_iff.mp h1 with ⟨ha, hb⟩
      rw [isNaNJs_eq] at ha hb
      cases a <;> simp [isNaNPrim] at ha
      cases b <;> simp [isNaNPrim] at hb
      rename_i p q
      cases p <;> simp_all [isNaNPrim]
      cases q <;> simp_all [isNaNPrim]
  · rintro rfl
    have h : valBeq a a = true := (valBeq_iff a a).mpr rfl
    by_cases hn : isNaNPrim a = true
    · simp [is, isNaNJs_eq, hn]
    · simp [is, strictEq, isNaNJs_eq, h, hn]

theorem is_refl (a : Val) : is a a = true := is_iff.mpr rfl

theorem eq_of_is {a b : Val} (h : is a b = true) : a = b := is_iff.mp h

theorem is_eq_decide (a b : Val) : is a b = decide (a = b) := by
  by_cases h : a = b
  · simp [h, is_refl]
  · simp [h]
    exact Bool.eq_false_iff.mpr (fun hc => h (eq_of_is hc))

/-! ### Predicates (source section "Utils") -/

/-- Source `isPrimitive(value)`: `!isObject(value) && !isFunction(value)`.
Lists, dicts and opaque objects/functions all fail it. -/
def isPrimitive : Val → Bool
  | .prim _ => true
  | _ => false

/-- Source `isObject(value)`: non-null values of object type.  `atom` also
covers functions, whose JS `typeof` is not `'object'`; no modelled operation
distinguishes the two (both are non-primitive, non-dict, non-array). -/
def isObject : Val → Bool
  | .list _ _ | .dict _ _ | .atom _ => true
  | _ => false

/-- Source `isDict(value)`: plain objects (prototype null or Object.prototype). -/
def isDict : Val → Bool
  | .dict _ _ => true
  | _ => false

/-- Source `isArray(value)`. -/
def isArray : Val → Bool
  | .list _ _ => true
  | _ => false

/-- Source `isInteger(value)`: `typeof value === 'number' && value % 1 === 0`.
NaN fails (`NaN % 1` is NaN). -/
def isInteger : Val → Bool
  | .prim (.num q) => q.den == 1
  | _ => false

/-- Source `isNatural(value)`: `isInteger(value) && value >= 0`. -/
def isNatural (v : Val) : Bool :=
  isInteger v && (match v with | .prim (.num q) => 0 ≤ q | _ => false)

/-- Source `isString(value)`. -/
def isString : Val → Bool
  | .prim (.str _) => true
  | _ => false

/-- Nullish test, source `value == null` (loose equality: null or undefined). -/
def isNil : Val → Bool
  | .prim .null | .prim .undefined => true
  | _ => false

/-- Source `isPath(value)`: `isArray(value) && everyBy(value, isPrimitive)`. -/
def isPath : Val → Bool
  | .list _ items => items.all isPrimitive
  | _ => false

/-! ### Keys and property access -/

/-- JS `String(p)` for a primitive.  Non-integral rationals are rendered
num/den (a modelling approximation; the claims never coerce such a number
to a key). -/
def keyOfPrim : Prim → String
  | .num q => if q.den == 1 then toString q.num else toString q.num ++ "/" ++ toString q.den
  | .nan => "NaN"
  | .str s => s
  | .bool b => if b then "true" else "false"
  | .null => "null"
  | .undefined => "undefined"

mutual

/-- Source `toKey(value)` together with the implicit `String(value)` coercion
of JS property access: primitives by `String()`, arrays join their elements
with commas (nullish elements becoming empty), other objects render as
"[object Object]" (functions are approximated the same way). -/
def toKey : Val → String
  | .prim p => keyOfPrim p
  | .list _ items => String.intercalate "," (toKeyItems items)
  | .dict _ _ => "[object Object]"
  | .atom _ => "[object Object]"

/-- Stringification of the items of an array, as in `Array.prototype.join`. -/
def toKeyItems : List Val → List String
  | [] => []
  | x :: xs => (if isNil x then "" else toKey x) :: toKeyItems xs

end

/-- Lookup of an own entry of a dict by key (first match). -/
def dGet : List (String × Val) → String → Option Val
  | [], _ => none
  | (k, v) :: rest, key => if k = key then some v else dGet rest key

/-- Property read of a dict: the stored value, or `undefined` when absent. -/
def dGetVal (es : List (String × Val)) (key : String) : Val :=
  (dGet es key).getD (.prim .undefined)

/-- Source `has.call(dict, key)`: own-property test (a stored nullish value
still counts as present). -/
def hasKey (es : List (String × Val)) (key : String) : Bool :=
  (dGet es key).isSome

/-- Source `getKeys` (`Object.keys`) on a dict's entries. -/
def getKeys (es : List (String × Val)) : List String :=
  es.map Prod.fst

/-- The items of an array value (empty for any other value). -/
def itemsOf : Val → List Val
  | .list _ items => items
  | _ => []

/-- The entries of a dict value (empty for any other value). -/
def entriesOf : Val → List (String × Val)
  | .dict _ es => es
  | _ => []

/-- The numeric value of a decimal digit character. -/
def charDigit (c : Char) : Option Nat :=
  if 48 ≤ c.toNat ∧ c.toNat ≤ 57 then some (c.toNat - 48) else none

/-- Accumulating decimal reading of a digit string. -/
def digitsAux : List Char → Nat → Option Nat
  | [], acc => some acc
  | c :: cs, acc =>
      match charDigit c with
      | some d => digitsAux cs (acc * 10 + d)
      | none => none

/-- A string that is the canonical decimal form of an array index: digits
only, no leading zero (except "0" itself). -/
def strAsIndex (s : String) : Option Nat :=
  match s.data with
  | [] => none
  | ['0'] => some 0
  | '0' :: _ :: _ => none
  | cs => digitsAux cs 0

/-- The array index denoted by a key, if any: a natural number key directly
(JS stringifies it canonically and parses it back, a roundtrip), any other
key through its string coercion in canonical decimal form. -/
def keyIndex : Val → Option Nat
  | .prim (.num q) => if q.den = 1 ∧ 0 ≤ q.num then some q.num.toNat else none
  | k => strAsIndex (toKey k)

/-- JS property read on an array: canonical-index elements and `length`;
everything else (methods etc.) reads as `undefined`. -/
def getListItem (items : List Val) (key : Val) : Val :=
  match keyIndex key with
  | some i => items.getD i (.prim .undefined)
  | none => if toKey key = "length" then .prim (.num items.length) else .prim .undefined

/-- JS property read on a string: characters by canonical index and `length`. -/
def getStringProp (s : String) (key : Val) : Val :=
  match keyIndex key with
  | some i =>
      if i < s.data.length then .prim (.str (String.mk [s.data.getD i ' '])) else .prim .undefined
  | none => if toKey key = "length" then .prim (.num s.length) else .prim .undefined

/-- Source `get(value, key)`: `value == null ? undefined : value[key]`.
Own data properties only; prototype-inherited properties read as undefined. -/
def get (value key : Val) : Val :=
  if isNil value then .prim .undefined
  else
    match value with
    | .dict _ es => dGetVal es (toKey key)
    | .list _ items => getListItem items key
    | .prim (.str s) => getStringProp s key
    | _ => .prim .undefined

/-- The two failure conditions of the source: `validate(value, test)` throwing
"Expected ... to satisfy test ..." (the test recorded by name), and the
bounds check of `validateBounds` throwing "Index ... out of bounds for
length ...". -/
inductive Err where
  | invalid (value : Val) (test : String)
  | bounds (index : Val) (length : Nat)
deriving DecidableEq, Repr

deriving instance DecidableEq for Except

/-- Fold of `get` over the elements of a validated path, the loop inside
source `getIn`. -/
def getInList : Val → List Val → Val
  | v, [] => v
  | v, k :: ks => getInList (get v k) ks

/-- Source `getIn(value, path)`: `validate(path, isArray)`, then fold `get`. -/
def getIn (value path : Val) : Except Err Val :=
  match path with
  | .list _ ks => .ok (getInList value ks)
  | _ => .error (.invalid path "isArray")

/-! ### Coercions -/

/-- Source `alwaysArray(value)`: nullish becomes a fresh empty array, arrays
pass through, anything else is an invalid-argument error. -/
def alwaysArray (v : Val) : Except Err Val :=
  if isNil v then .ok (.list 0 [])
  else if isArray v then .ok v
  else .error (.invalid v "isArray")

/-- Source `alwaysDict(value)`: nullish becomes a fresh empty dict, dicts pass
through, anything else is an invalid-argument error. -/
def alwaysDict (v : Val) : Except Err Val :=
  if isNil v then .ok (.dict 0 [])
  else if isDict v then .ok v
  else .error (.invalid v "isDict")

/-- Source `toDict(value)`: dicts pass through, anything else becomes a fresh
empty dict. -/
def toDict (v : Val) : Val :=
  if isDict v then v else .dict 0 []

/-! ### Structural equality with a pluggable comparator -/

/-- Source `everyListPairBy(one, other, fun)`: same length and `fun` holds at
every index. -/
def everyListPairBy (one other : Val) (f : Val → Val → Bool) : Bool :=
  (itemsOf one).length == (itemsOf other).length &&
    ((itemsOf one).zip (itemsOf other)).all fun e => f e.1 e.2

/-- Source `everyDictPairBy(one, other, fun)`: same number of keys, every key
of `one` present in `other`, and `fun` holds at every key of `one`. -/
def everyDictPairBy (one other : Val) (f : Val → Val → Bool) : Bool :=
  (getKeys (entriesOf one)).length == (getKeys (entriesOf other)).length &&
    (getKeys (entriesOf one)).all (fun k => hasKey (entriesOf other) k) &&
    (getKeys (entriesOf one)).all
      (fun k => f (dGetVal (entriesOf one) k) (dGetVal (entriesOf other) k))

/-- Source `equalBy(one, other, fun)`.  The source validates that `fun` is a
function; the Lean type does that here. -/
def equalBy (one other : Val) (f : Val → Val → Bool) : Bool :=
  is one other ||
    (if isArray one then isArray other && everyListPairBy one other f
     else if isDict one then isDict other && everyDictPairBy one other f
     else false)

/-! ### Structural update core -/

mutual

/-- Source `putAny(prev, next)`: keep `prev` when `is`-equal; recurse through
matching array/dict shapes (each fresh candidate discarded again when
elementwise/structurally `is`-equal to `prev`); otherwise replace by `next`
verbatim. -/
def putAny (p n : Val) : Val :=
  if is p n then p
  else
    match p, n with
    | .list _ _, .list _ ns =>
        let out := Val.list 0 (putListPairs (itemsOf p) ns)
        if equalBy p out is then p else out
    | .list _ _, _ => n
    | .dict _ _, .dict _ ns =>
        let out := Val.dict 0 (putDictEntries (entriesOf p) ns)
        if equalBy p out is then p else out
    | .dict _ _, _ => n
    | _, _ => n
termination_by structural n

/-- The loop of source `replaceListBy(prev, next, putAny)`: a fresh array of
`next`'s length whose slot `i` is `putAny(prev[i], next[i])` (reading past
the end of `prev` yields `undefined`). -/
def putListPairs (ps : List Val) : List Val → List Val
  | [] => []
  | x :: xs => putAny (ps.headD (.prim .undefined)) x :: putListPairs (ps.tailD []) xs
termination_by structural xs => xs

/-- The loop of source `replaceDictBy(prev, next, putAny)`: for each entry of
`next` (JS object keys are unique, so the iterated entry is the looked-up
`next[key]`), keep `putAny(prev[key], next[key])` unless nullish. -/
def putDictEntries (pes : List (String × Val)) : List (String × Val) → List (String × Val)
  | [] => []
  | (k, nv) :: rest =>
      let v := putAny (dGetVal pes k) nv
      (if isNil v then [] else [(k, v)]) ++ putDictEntries pes rest
termination_by structural xs => xs

end

/-- Source `patchDictBy(prev, next, fun)` (non-recursive in `fun`): entries of
`prev` not overridden by `next` and not nullish, then for each key of `next`
the value `fun(prev[key], next[key])` unless nullish; the fresh dict is
discarded for `prev` when `equalBy(prev, out, is)`. -/
def patchDictBy (p n : Val) (f : Val → Val → Val) : Val :=
  let pes := entriesOf p
  let nes := entriesOf n
  let out := Val.dict 0
    (pes.filter (fun e => !(isNil e.2) && !(hasKey nes e.1)) ++
      nes.filterMap (fun e =>
        if isNil (f (dGetVal pes e.1) e.2) then none
        else some (e.1, f (dGetVal pes e.1) e.2)))
  if equalBy p out is then p else out

/-- Source `patchTwoDicts(prev, next)`: coerce both through `alwaysDict`,
short-circuit on `is`, else `patchDictBy` with `putAny`. -/
def patchTwoDicts (prev next : Val) : Except Err Val := do
  let p ← alwaysDict prev
  let n ← alwaysDict next
  pure (if is p n then p else patchDictBy p n putAny)

/-- Source `patch(prev, next)` in its binary form (the n-ary form left-folds
`patchTwoDicts` and is not modelled). -/
def patch (prev next : Val) : Except Err Val :=
  patchTwoDicts prev next

mutual

/-- Source `mergeTwo(prev, next)`: short-circuit on `is`, else
`patchDictBy(toDict(prev), toDict(next), mergeOrPut)`, here with the
`patchDictBy` loop and `mergeOrPut` inlined so the recursion is structural
in `next` (a non-dict `next` coerces to a fresh empty dict, so only the
passthrough half of `patchDictBy` remains in that branch). -/
def mergeTwo (p n : Val) : Val :=
  if is p n then p
  else
    match n with
    | .dict _ nes =>
        let out := Val.dict 0
          ((entriesOf (toDict p)).filter (fun e => !(isNil e.2) && !(hasKey nes e.1)) ++
            mergeEntries (entriesOf (toDict p)) nes)
        if equalBy (toDict p) out is then toDict p else out
    | _ =>
        let out := Val.dict 0
          ((entriesOf (toDict p)).filter (fun e => !(isNil e.2)))
        if equalBy (toDict p) out is then toDict p else out
termination_by structural n

/-- The `next`-keys loop of `patchDictBy(_, _, mergeOrPut)` with
`mergeOrPut(prev, next) = isDict(next) ? mergeTwo(prev, next) :
putAny(prev, next)` inlined. -/
def mergeEntries (pes : List (String × Val)) : List (String × Val) → List (String × Val)
  | [] => []
  | (k, nv) :: rest =>
      let v := match nv with
        | .dict i es => mergeTwo (dGetVal pes k) (.dict i es)
        | _ => putAny (dGetVal pes k) nv
      (if isNil v then [] else [(k, v)]) ++ mergeEntries pes rest
termination_by structural xs => xs

end

/-- Source `mergeOrPut(prev, next)`: merge when `next` is a dict, else
`putAny`. -/
def mergeOrPut (p n : Val) : Val :=
  if isDict n then mergeTwo p n else putAny p n

/-- Source `mergeTwoDicts(prev, next)`: `mergeTwo(alwaysDict(prev),
alwaysDict(next))`. -/
def mergeTwoDicts (prev next : Val) : Except Err Val := do
  let p ← alwaysDict prev
  let n ← alwaysDict next
  pure (mergeTwo p n)

/-- Source `merge(prev, next)` in its binary form (the n-ary form left-folds
`mergeTwoDicts` and is not modelled). -/
def merge (prev next : Val) : Except Err Val :=
  mergeTwoDicts prev next

/-! ### Assoc (insert at key or path without reference-preserving checks) -/

/-- The natural number held by a value already validated by `isNatural`. -/
def natOfKey : Val → Nat
  | .prim (.num q) => q.num.toNat
  | _ => 0

/-- Source `assocAtIndex(list, index, value)`: `validateBounds` (a natural
index at most the length), then the original array when the slot already
holds an `is`-equal value, else a fresh copy with the slot overwritten
(writing at `length` appends). -/
def assocAtIndex (l key v : Val) : Except Err Val :=
  let items := itemsOf l
  if isNatural key then
    let i := natOfKey key
    if items.length < i then .error (.bounds key items.length)
    else if i < items.length ∧ is (items.getD i (.prim .undefined)) v then .ok l
    else .ok (.list 0 (if i < items.length then items.set i v else items ++ [v]))
  else .error (.invalid key "isNatural")

/-- Source `assocAtKey(dict, key, value)`: unchanged when deleting an absent
key or writing an `is`-equal value; else a fresh dict keeping the other
non-nullish entries (in order) and appending the key unless the value is
nullish. -/
def assocAtKey (d key v : Val) : Val :=
  let ks := toKey key
  let es := entriesOf d
  let out := Val.dict 0
    (es.filter (fun e => e.1 ≠ ks && !(isNil e.2)) ++
      (if isNil v then [] else [(ks, v)]))
  if isNil v then (if hasKey es ks then out else d)
  else if is (dGetVal es ks) v then d
  else out

/-- Source `assoc(prev, key, next)`: arrays by index, anything else coerced
through `alwaysDict` and by key. -/
def assoc (prev key next : Val) : Except Err Val :=
  if isArray prev then assocAtIndex prev key next
  else do
    let d ← alwaysDict prev
    pure (assocAtKey d key next)

/-- Source `assocInAt(prev, path, next, index)`: recurse to the end of the
path (the inner call is evaluated first, as in the source's argument
position), then `assoc` upwards level by level. -/
def assocInAt (prev : Val) (path : List Val) (next : Val) : Except Err Val :=
  match path with
  | [] => .ok next
  | [k] => assoc prev k next
  | k :: rest => do
      let inner ← assocInAt (get prev k) rest next
      assoc prev k inner

/-- Source `assocIn(prev, path, next)`: `next` itself on an empty path. -/
def assocIn (prev : Val) (path : List Val) (next : Val) : Except Err Val :=
  if path.isEmpty then .ok next else assocInAt prev path next

/-! ### The public update operations -/

/-- Source `put(prev, key, value)`: validate the key is primitive, then
`assoc(prev, key, putAny(get(prev, key), value))`. -/
def put (prev key value : Val) : Except Err Val :=
  if isPrimitive key then assoc prev key (putAny (get prev key) value)
  else .error (.invalid key "isPrimitive")

/-- Source `putIn(prev, path, next)`: validate the path (`isPath`), then
`assocIn(prev, path, putAny(getIn(prev, path), next))`. -/
def putIn (prev path next : Val) : Except Err Val :=
  match path with
  | .list i ks =>
      if ks.all isPrimitive then assocIn prev ks (putAny (getInList prev ks) next)
      else .error (.invalid (.list i ks) "isPath")
  | _ => .error (.invalid path "isPath")

/-- Source `insertAtIndex(list, index, value)`: coerce through `alwaysArray`,
`validateBounds`, then always a fresh array with the value spliced in. -/
def insertAtIndex (list index value : Val) : Except Err Val := do
  let l ← alwaysArray list
  let items := itemsOf l
  if isNatural index then
    let i := natOfKey index
    if items.length < i then .error (.bounds index items.length)
    else .ok (.list 0 (items.take i ++ value :: items.drop i))
  else .error (.invalid index "isNatural")

/-- Source `removeAtIndex(list, index)`: validate the index is an integer
(before the list is even coerced), coerce through `alwaysArray`, then splice
only when the index is natural and strictly within the length — otherwise
the (coerced) list itself. -/
def removeAtIndex (list index : Val) : Except Err Val :=
  if isInteger index then do
    let l ← alwaysArray list
    let items := itemsOf l
    if isNatural index = true ∧ natOfKey index < items.length then
      pure (.list 0 (items.take (natOfKey index) ++ items.drop (natOfKey index + 1)))
    else pure l
  else .error (.invalid index "isInteger")

/-! ### Helpers for stating the claims -/

/-- Whether an operation signalled an error. -/
def isError : Except Err Val → Bool
  | .error _ => true
  | .ok _ => false

/-- Whether an operation signalled the out-of-bounds error (and not the
invalid-argument error of `validate`). -/
def errIsBounds : Except Err Val → Bool
  | .error (.bounds _ _) => true
  | _ => false

/-! ### Basic lemmas about the model -/

theorem putAny_self (v : Val) : putAny v v = v := by
  rw [putAny.eq_def]
  simp [is_refl]

theorem putAny_of_is {p n : Val} (h : is p n = true) : putAny p n = p := by
  rw [putAny.eq_def]
  simp [h]

theorem hasKey_of_mem_keys {es : List (String × Val)} {k : String}
    (h : k ∈ getKeys es) : hasKey es k = true := by
  induction es with
  | nil => simp [getKeys] at h
  | cons e rest ih =>
      simp only [getKeys, List.map_cons, List.mem_cons] at h
      rcases h with h | h
      · simp [hasKey, dGet, h.symm]
      · by_cases he : e.1 = k
        · simp [hasKey, dGet, he]
        · have := ih (by simpa [getKeys] using h)
          simpa [hasKey, dGet, he] using this

theorem mem_keys_of_hasKey {es : List (String × Val)} {k : String}
    (h : hasKey es k = true) : k ∈ getKeys es := by
  induction es with
  | nil => simp [hasKey, dGet] at h
  | cons e rest ih =>
      by_cases he : e.1 = k
      · simp [getKeys, he]
      · simp only [hasKey, dGet, he, if_false] at h
        simp [getKeys, List.mem_cons]
        exact Or.inr (by simpa [getKeys] using ih (by simpa [hasKey] using h))

theorem isInteger_of_isNatural {v : Val} (h : isNatural v = true) : isInteger v = true := by
  simp only [isNatural, Bool.and_eq_true] at h
  exact h.1

theorem bind_ok (a : Val) (f : Val → Except Err Val) :
    ((Except.ok a : Except Err Val) >>= f) = f a := rfl

theorem bind_error (e : Err) (f : Val → Except Err Val) :
    ((Except.error e : Except Err Val) >>= f) = .error e := rfl

theorem pure_ok (a : Val) : (pure a : Except Err Val) = .ok a := rfl

/-! ### Claim C10 -/

/-- C10: `putIn` with the empty path coincides with `putAny` on the whole
value: it returns `prev` itself when `prev` and `next` are `is`-identical,
and `next` verbatim on mismatched classification. -/
theorem C10_putIn_empty_path :
    (∀ (prev next : Val) (i : Nat), putIn prev (.list i []) next = .ok (putAny prev next)) ∧
    (∀ prev next : Val, is prev next = true → putAny prev next = prev) ∧
    (∀ prev next : Val, is prev next = false → (isArray prev && isArray next) = false →
      (isDict prev && isDict next) = false → putAny prev next = next) := by
  refine ⟨?_, ?_, ?_⟩
  · intro prev next i
    simp [putIn, assocIn, getInList]
  · intro prev next h
    exact putAny_of_is h
  · intro prev next h harr hdict
    rw [putAny.eq_def]
    cases prev <;> cases next <;> simp_all [isArray, isDict]

/-- Witness for C10 at concrete inputs. -/
theorem C10_putIn_empty_path_witness :
    putIn (.prim (.num 5)) (.list 1 []) (.prim (.num 6))
        = .ok (putAny (.prim (.num 5)) (.prim (.num 6))) ∧
    putAny (.dict 1 []) (.dict 1 []) = .dict 1 [] ∧
    putAny (.prim (.num 5)) (.dict 2 []) = .dict 2 [] :=
  ⟨C10_putIn_empty_path.1 _ _ 1,
   C10_putIn_empty_path.2.1 _ _ (by decide),
   C10_putIn_empty_path.2.2 _ _ (by decide) (by decide) (by decide)⟩

/-! ### Claim C7 -/

/-- C7 counterexample: a path that is a List but not a List of primitives (it
contains a dict) does not make `getIn` fail, contradicting the claim that
`getIn` fails with an invalid-argument error whenever the path is not a List
of primitives. -/
theorem C7_counterexample :
    isPath (.list 1 [.dict 2 []]) = false ∧
    getIn (.prim .null) (.list 1 [.dict 2 []]) = .ok (.prim .undefined) ∧
    isError (getIn (.prim .null) (.list 1 [.dict 2 []])) = false := by decide

/-- C7 amended: `getIn` fails with an invalid-argument error exactly when the
path is not a List (only `isArray` is validated, not `isPath`); for any List
path — whatever its elements — it never throws and folds null-safe `get`
across the path. -/
theorem C7_getIn (value path : Val) :
    (isArray path = false → getIn value path = .error (.invalid path "isArray")) ∧
    (∀ i ks, path = .list i ks → getIn value path = .ok (getInList value ks)) := by
  constructor
  · intro h
    cases path <;> simp_all [getIn, isArray]
  · intro i ks h
    subst h
    simp [getIn]

/-- Witness for C7 at concrete inputs. -/
theorem C7_getIn_witness :
    getIn (.prim .null) (.prim (.str "a")) = .error (.invalid (.prim (.str "a")) "isArray") ∧
    getIn (.dict 1 [("a", .prim (.num 2))]) (.list 2 [.prim (.str "a")])
      = .ok (getInList (.dict 1 [("a", .prim (.num 2))]) [.prim (.str "a")]) :=
  ⟨(C7_getIn (.prim .null) (.prim (.str "a"))).1 (by decide),
   (C7_getIn (.dict 1 [("a", .prim (.num 2))]) (.list 2 [.prim (.str "a")])).2 2
     [.prim (.str "a")] rfl⟩

/-! ### Claim C5 -/

/-- C5: `removeAtIndex` fails exactly when the index is not an integer or the
list is neither nullish nor a List; an integer index that is out of range
(negative or at least the length) returns the list unchanged — the same
reference for a real List, the fresh empty List for a nullish input — and a
natural index strictly below the length returns a fresh List with the
element spliced out. -/
theorem C5_removeAtIndex :
    (∀ l idx : Val, isError (removeAtIndex l idx)
        = (!(isInteger idx) || (!(isNil l) && !(isArray l)))) ∧
    (∀ l idx : Val, isNil l = true → isInteger idx = true →
        removeAtIndex l idx = .ok (.list 0 [])) ∧
    (∀ (i : Nat) (items : List Val) (idx : Val), isInteger idx = true →
        (isNatural idx = false ∨ items.length ≤ natOfKey idx) →
        removeAtIndex (.list i items) idx = .ok (.list i items)) ∧
    (∀ (i : Nat) (items : List Val) (idx : Val), isNatural idx = true →
        natOfKey idx < items.length →
        removeAtIndex (.list i items) idx
          = .ok (.list 0 (items.take (natOfKey idx) ++ items.drop (natOfKey idx + 1)))) := by
  refine ⟨?_, ?_, ?_, ?_⟩
  · intro l idx
    by_cases h1 : isInteger idx = true
    · by_cases h2 : isNil l = true
      · simp only [removeAtIndex, h1, if_true, alwaysArray, h2, bind_ok, pure_ok]
        split <;> simp [isError, h1, h2]
      · by_cases h3 : isArray l = true
        · simp only [removeAtIndex, h1, if_true, alwaysArray, h2, h3, if_false, bind_ok,
            pure_ok, Bool.false_eq_true]
          split <;> simp_all [isError]
        · simp only [removeAtIndex, h1, if_true, alwaysArray, h2, h3, bind_error,
            Bool.false_eq_true, if_false]
          simp_all [isError]
    · simp only [Bool.not_eq_true] at h1
      simp [removeAtIndex, h1, isError]
  · intro l idx h1 h2
    simp [removeAtIndex, alwaysArray, h1, h2, bind_ok, pure_ok, itemsOf]
  · intro i items idx h1 h2
    have hcond : ¬(isNatural idx = true ∧ natOfKey idx < items.length) := by
      rcases h2 with h2 | h2
      · simp [h2]
      · intro hc
        omega
    simp [removeAtIndex, alwaysArray, h1, isNil, isArray, bind_ok, pure_ok, itemsOf, hcond]
  · intro i items idx h1 h2
    have h0 : isInteger idx = true := isInteger_of_isNatural h1
    simp [removeAtIndex, alwaysArray, h0, h1, h2, isNil, isArray, bind_ok, pure_ok, itemsOf]

/-- Witness for C5 at concrete inputs. -/
theorem C5_removeAtIndex_witness :
    removeAtIndex (.prim .null) (.prim (.num 3)) = .ok (.list 0 []) ∧
    removeAtIndex (.list 1 [.prim (.num 1), .prim (.num 2), .prim (.num 3)]) (.prim (.num 5))
      = .ok (.list 1 [.prim (.num 1), .prim (.num 2), .prim (.num 3)]) ∧
    removeAtIndex (.list 1 [.prim (.num 1), .prim (.num 2), .prim (.num 3)]) (.prim (.num 1))
      = .ok (.list 0 ([.prim (.num 1), .prim (.num 2), .prim (.num 3)].take 1 ++
          [.prim (.num 1), .prim (.num 2), .prim (.num 3)].drop 2)) ∧
    isError (removeAtIndex (.atom 1) (.prim (.num 0))) = true :=
  ⟨C5_removeAtIndex.2.1 _ _ (by decide) (by decide),
   C5_removeAtIndex.2.2.1 1 _ _ (by decide) (by decide),
   by
     have h := C5_removeAtIndex.2.2.2 1
       [.prim (.num 1), .prim (.num 2), .prim (.num 3)] (.prim (.num 1))
       (by decide) (by decide)
     simpa using h,
   by
     have h := C5_removeAtIndex.1 (.atom 1) (.prim (.num 0))
     simpa using h⟩

/-! ### Claim C6 -/

/-- C6 counterexample: for the non-natural integer index -1 (outside
`[0, length]`), `insertAtIndex` fails with the invalid-argument error of
`validate(index, isNatural)`, not with the bounds error the claim names. -/
theorem C6_counterexample :
    insertAtIndex (.list 1 []) (.prim (.num (-1))) (.prim (.num 0))
        = .error (.invalid (.prim (.num (-1))) "isNatural") ∧
    errIsBounds (insertAtIndex (.list 1 []) (.prim (.num (-1))) (.prim (.num 0))) = false ∧
    isError (insertAtIndex (.list 1 []) (.prim (.num (-1))) (.prim (.num 0))) = true := by decide

/-- C6 amended: `insertAtIndex` coerces a nullish list to the empty List and
rejects any other non-List; it fails unless the index is a natural number in
`[0, length]` — with the out-of-bounds error when the index is natural but
exceeds the length, and with an invalid-argument error when the index is not
natural — and for an in-range index always returns a fresh List (never the
input reference) with the value spliced in at the index. -/
theorem C6_insertAtIndex :
    (∀ lst idx v : Val, isNil lst = false → isArray lst = false →
        insertAtIndex lst idx v = .error (.invalid lst "isArray")) ∧
    (∀ lst idx v : Val, isNil lst = true →
        insertAtIndex lst idx v = insertAtIndex (.list 0 []) idx v) ∧
    (∀ (i : Nat) (items : List Val) (idx v : Val), isNatural idx = false →
        insertAtIndex (.list i items) idx v = .error (.invalid idx "isNatural")) ∧
    (∀ (i : Nat) (items : List Val) (idx v : Val), isNatural idx = true →
        items.length < natOfKey idx →
        insertAtIndex (.list i items) idx v = .error (.bounds idx items.length)) ∧
    (∀ (i : Nat) (items : List Val) (idx v : Val), isNatural idx = true →
        natOfKey idx ≤ items.length →
        insertAtIndex (.list i items) idx v
          = .ok (.list 0 (items.take (natOfKey idx) ++ v :: items.drop (natOfKey idx)))) ∧
    (∀ (i : Nat) (items : List Val) (idx v : Val) (r : Val),
        insertAtIndex (.list i items) idx v = .ok r → r ≠ .list i items) := by
  refine ⟨?_, ?_, ?_, ?_, ?_, ?_⟩
  · intro lst idx v h1 h2
    simp [insertAtIndex, alwaysArray, h1, h2, bind_error]
  · intro lst idx v h1
    have hL : alwaysArray lst = .ok (.list 0 []) := by simp [alwaysArray, h1]
    have hR : alwaysArray (.list 0 []) = .ok (.list 0 []) := rfl
    simp only [insertAtIndex, hL, hR, bind_ok]
  · intro i items idx v h1
    simp [insertAtIndex, alwaysArray, h1, isNil, isArray, bind_ok, itemsOf]
  · intro i items idx v h1 h2
    simp [insertAtIndex, alwaysArray, h1, h2, isNil, isArray, bind_ok, itemsOf]
  · intro i items idx v h1 h2
    have h3 : ¬(items.length < natOfKey idx) := by omega
    simp [insertAtIndex, alwaysArray, h1, h3, isNil, isArray, bind_ok, itemsOf]
  · intro i items idx v r hr
    by_cases h1 : isNatural idx = true
    · by_cases h2 : items.length < natOfKey idx
      · simp [insertAtIndex, alwaysArray, h1, h2, isNil, isArray, bind_ok, itemsOf] at hr
      · simp only [insertAtIndex, alwaysArray, h1, h2, isNil, isArray, bind_ok, itemsOf,
          if_true, if_false, Bool.false_eq_true] at hr
        injection hr with h
        subst h
        intro hcontra
        have hlen := congrArg (fun w => (itemsOf w).length) hcontra
        simp [itemsOf] at hlen
        omega
    · simp only [Bool.not_eq_true] at h1
      simp [insertAtIndex, alwaysArray, h1, isNil, isArray, bind_ok, itemsOf] at hr

/-- Witness for C6 at concrete inputs. -/
theorem C6_insertAtIndex_witness :
    insertAtIndex (.atom 1) (.prim (.num 0)) (.prim (.num 0))
        = .error (.invalid (.atom 1) "isArray") ∧
    insertAtIndex (.prim .null) (.prim (.num 0)) (.prim (.num 7))
        = insertAtIndex (.list 0 []) (.prim (.num 0)) (.prim (.num 7)) ∧
    insertAtIndex (.list 1 [.prim (.num 1), .prim (.num 2), .prim (.num 3)])
        (.prim (.num 5)) (.prim (.str "x"))
        = .error (.bounds (.prim (.num 5)) 3) ∧
    insertAtIndex (.list 1 [.prim (.num 1), .prim (.num 2), .prim (.num 3)])
        (.prim (.num 1)) (.prim (.str "x"))
        = .ok (.list 0 [.prim (.num 1), .prim (.str "x"), .prim (.num 2), .prim (.num 3)]) ∧
    (Val.list 0 [.prim (.num 7)]) ≠ .list 1 [] :=
  ⟨C6_insertAtIndex.1 _ _ _ (by decide) (by decide),
   C6_insertAtIndex.2.1 _ _ _ (by decide),
   by
     have h := C6_insertAtIndex.2.2.2.1 1
       [.prim (.num 1), .prim (.num 2), .prim (.num 3)] (.prim (.num 5)) (.prim (.str "x"))
       (by decide) (by decide)
     simpa using h,
   by
     have h := C6_insertAtIndex.2.2.2.2.1 1
       [.prim (.num 1), .prim (.num 2), .prim (.num 3)] (.prim (.num 1)) (.prim (.str "x"))
       (by decide) (by decide)
     simpa using h,
   C6_insertAtIndex.2.2.2.2.2 1 [] (.prim (.num 0)) (.prim (.num 7)) _ (by decide)⟩

/-! ### Claim C2 -/

/-- C2: for `v = {a: {b: 1, c: 2}}`, `putIn(v, ['a','b'], 1)` returns the very
reference `v`; `putIn(v, ['a','b'], 9)` returns a freshly allocated
top-level object (id 0, distinct from `v`), in which the sibling entry `c`
of the updated path keeps its value from `v`. -/
theorem C2_path_spine_sharing :
    putIn (.dict 1 [("a", .dict 2 [("b", .prim (.num 1)), ("c", .prim (.num 2))])])
        (.list 3 [.prim (.str "a"), .prim (.str "b")]) (.prim (.num 1))
      = .ok (.dict 1 [("a", .dict 2 [("b", .prim (.num 1)), ("c", .prim (.num 2))])]) ∧
    putIn (.dict 1 [("a", .dict 2 [("b", .prim (.num 1)), ("c", .prim (.num 2))])])
        (.list 3 [.prim (.str "a"), .prim (.str "b")]) (.prim (.num 9))
      = .ok (.dict 0 [("a", .dict 0 [("c", .prim (.num 2)), ("b", .prim (.num 9))])]) ∧
    (Val.dict 0 [("a", .dict 0 [("c", .prim (.num 2)), ("b", .prim (.num 9))])])
      ≠ .dict 1 [("a", .dict 2 [("b", .prim (.num 1)), ("c", .prim (.num 2))])] ∧
    get (get (.dict 0 [("a", .dict 0 [("c", .prim (.num 2)), ("b", .prim (.num 9))])])
          (.prim (.str "a"))) (.prim (.str "c"))
      = get (get (.dict 1 [("a", .dict 2 [("b", .prim (.num 1)), ("c", .prim (.num 2))])])
          (.prim (.str "a"))) (.prim (.str "c")) := by decide

/-! ### Claim C4 -/

/-- C4: `merge` combines recursively at Dict-valued shared keys while `patch`
replaces flatly — on `v1 = {a:{x:1}}`, `v2 = {a:{y:2}}`, `merge` yields
`{a:{x:1,y:2}}` and `patch` yields `{a:{y:2}}` — and at non-Dict values
`mergeOrPut` falls back to `putAny`. -/
theorem C4_merge_vs_patch :
    merge (.dict 1 [("a", .dict 2 [("x", .prim (.num 1))])])
        (.dict 3 [("a", .dict 4 [("y", .prim (.num 2))])])
      = .ok (.dict 0 [("a", .dict 0 [("x", .prim (.num 1)), ("y", .prim (.num 2))])]) ∧
    patch (.dict 1 [("a", .dict 2 [("x", .prim (.num 1))])])
        (.dict 3 [("a", .dict 4 [("y", .prim (.num 2))])])
      = .ok (.dict 0 [("a", .dict 0 [("y", .prim (.num 2))])]) ∧
    (∀ p n : Val, isDict n = false → mergeOrPut p n = putAny p n) ∧
    (∀ p n : Val, isDict n = true → mergeOrPut p n = mergeTwo p n) := by
  refine ⟨by decide, by decide, ?_, ?_⟩
  · intro p n h
    simp [mergeOrPut, h]
  · intro p n h
    simp [mergeOrPut, h]

/-- Witness for C4 at concrete inputs. -/
theorem C4_merge_vs_patch_witness :
    mergeOrPut (.prim (.num 1)) (.prim (.num 2)) = putAny (.prim (.num 1)) (.prim (.num 2)) ∧
    mergeOrPut (.prim (.num 1)) (.dict 1 []) = mergeTwo (.prim (.num 1)) (.dict 1 []) :=
  ⟨C4_merge_vs_patch.2.2.1 _ _ (by decide),
   C4_merge_vs_patch.2.2.2 _ _ (by decide)⟩

/-! ### Claim C8 -/

theorem everyDictPairBy_refl (i j : Nat) (es : List (String × Val)) :
    everyDictPairBy (.dict i es) (.dict j es) is = true := by
  simp only [everyDictPairBy, entriesOf, Bool.and_eq_true, beq_iff_eq, List.all_eq_true]
  refine ⟨⟨trivial, fun k hk => hasKey_of_mem_keys hk⟩, fun k _ => is_refl _⟩

theorem equalBy_dict_refl (i j : Nat) (es : List (String × Val)) :
    equalBy (.dict i es) (.dict j es) is = true := by
  simp [equalBy, isArray, isDict, everyDictPairBy_refl]

/-- C8 counterexample: the claim quantifies over every value `v`, but for
`v = null` both `patch(v, {})` and `merge(v, v)` return a fresh empty Dict,
not `v`. -/
theorem C8_counterexample :
    patch (.prim .null) (.dict 1 []) = .ok (.dict 0 []) ∧
    merge (.prim .null) (.prim .null) = .ok (.dict 0 []) ∧
    (Val.dict 0 [] : Val) ≠ .prim .null := by decide

/-- C8 amended: for every Dict `v` whose entries hold no nullish value,
`patch(v, {})` returns `v` itself, and for every Dict `v` whatsoever,
`merge(v, v)` returns `v` itself.  (A non-Dict `v` is coerced or rejected by
`alwaysDict`, and a Dict with a nullish entry is rebuilt without it by
`patch`.) -/
theorem C8_idempotence :
    (∀ (i : Nat) (es : List (String × Val)) (j : Nat),
        (∀ e ∈ es, isNil e.2 = false) →
        patch (.dict i es) (.dict j []) = .ok (.dict i es)) ∧
    (∀ (i : Nat) (es : List (String × Val)),
        merge (.dict i es) (.dict i es) = .ok (.dict i es)) := by
  constructor
  · intro i es j h
    simp only [patch, patchTwoDicts, alwaysDict, isNil, isDict, Bool.false_eq_true, if_false,
      if_true, bind_ok, pure_ok]
    by_cases his : is (.dict i es) (.dict j []) = true
    · simp [his]
    · simp only [Bool.not_eq_true] at his
      have hfilter : es.filter (fun e => !(isNil e.2) && !(hasKey ([] : List (String × Val)) e.1))
          = es := by
        refine List.filter_eq_self.mpr fun e he => ?_
        simp [h e he, hasKey, dGet]
      simp only [his, Bool.false_eq_true, if_false, patchDictBy, entriesOf, hfilter,
        List.filterMap_nil, List.append_nil]
      simp [equalBy_dict_refl i 0 es]
  · intro i es
    simp only [merge, mergeTwoDicts, alwaysDict, isNil, isDict, Bool.false_eq_true, if_false,
      if_true, bind_ok, pure_ok]
    rw [mergeTwo.eq_def]
    simp [is_refl]

/-- Witness for C8 at concrete inputs. -/
theorem C8_idempotence_witness :
    patch (.dict 1 [("a", .prim (.num 1))]) (.dict 2 [])
        = .ok (.dict 1 [("a", .prim (.num 1))]) ∧
    merge (.dict 1 [("a", .prim (.num 1))]) (.dict 1 [("a", .prim (.num 1))])
        = .ok (.dict 1 [("a", .prim (.num 1))]) :=
  ⟨C8_idempotence.1 1 [("a", .prim (.num 1))] 2 (by decide),
   C8_idempotence.2 1 [("a", .prim (.num 1))]⟩

/-! ### Claim C1 -/

/-- Whether a dict's entry at a key, if present, is non-nullish. -/
def entryNotNil (es : List (String × Val)) (k : String) : Bool :=
  match dGet es k with
  | some v => !(isNil v)
  | none => true

/-- C1 counterexample: for the Dict `{a: null}` — an entry explicitly present
with a nullish value — `put(v, 'a', get(v,'a'))` does not return `v` but a
freshly rebuilt empty Dict, contradicting the claim for arbitrary Dicts.
(For Lists the claim also fails at out-of-range keys, which throw.) -/
theorem C1_counterexample :
    put (.dict 1 [("a", .prim .null)]) (.prim (.str "a"))
        (get (.dict 1 [("a", .prim .null)]) (.prim (.str "a"))) = .ok (.dict 0 []) ∧
    (Val.dict 0 [] : Val) ≠ .dict 1 [("a", .prim .null)] ∧
    isError (put (.list 1 []) (.prim (.str "a"))
        (get (.list 1 []) (.prim (.str "a")))) = true := by decide

/-- C1 amended: `put(v, k, get(v, k))` returns `v` itself for every Dict `v`
and primitive key `k` whose entry at `k` (if present) is non-nullish, and
for every List `v` and natural-number key strictly below the length.  (A
Dict entry that is present but nullish is rebuilt away; a List key that is
not a natural number below the length either throws or, at exactly the
length, returns an extended copy.) -/
theorem C1_put_identity :
    (∀ (i : Nat) (es : List (String × Val)) (key : Val), isPrimitive key = true →
        entryNotNil es (toKey key) = true →
        put (.dict i es) key (get (.dict i es) key) = .ok (.dict i es)) ∧
    (∀ (i : Nat) (items : List Val) (kn : Nat), kn < items.length →
        put (.list i items) (.prim (.num kn)) (get (.list i items) (.prim (.num kn)))
          = .ok (.list i items)) := by
  constructor
  · intro i es key hprim hnil
    have hget : get (.dict i es) key = dGetVal es (toKey key) := by
      simp [get, isNil]
    simp only [put, hprim, if_true, putAny_self, hget, assoc, isArray, Bool.false_eq_true,
      if_false, alwaysDict, isNil, isDict, bind_ok, pure_ok]
    cases hk : dGet es (toKey key) with
    | none =>
        have hv : dGetVal es (toKey key) = .prim .undefined := by simp [dGetVal, hk]
        simp [assocAtKey, entriesOf, hv, isNil, hasKey, hk]
    | some pv =>
        have hnil : isNil pv = false := by
          have := hnil
          simp only [entryNotNil, hk, Bool.not_eq_true'] at this
          exact this
        have hv : dGetVal es (toKey key) = pv := by simp [dGetVal, hk]
        simp [assocAtKey, entriesOf, hv, hnil, is_refl]
  · intro i items kn hlt
    have hden : ((kn : Rat)).den = 1 := Rat.den_natCast kn
    have hnum : ((kn : Rat)).num = (kn : Int) := Rat.num_natCast kn
    have hkeyIdx : keyIndex (.prim (.num (kn : Rat))) = some kn := by
      simp [keyIndex, hden, hnum]
    have hget : get (.list i items) (.prim (.num (kn : Rat)))
        = items.getD kn (.prim .undefined) := by
      simp [get, isNil, getListItem, hkeyIdx]
    have hnat : isNatural (.prim (.num (kn : Rat))) = true := by
      simp [isNatural, isInteger, hden]
    have hnatOf : natOfKey (.prim (.num (kn : Rat))) = kn := by
      simp [natOfKey, hnum]
    have hnotlt : ¬(items.length < kn) := by omega
    simp [put, isPrimitive, putAny_self, hget, assoc, isArray, assocAtIndex, itemsOf,
      hnat, hnatOf, hnotlt, hlt, is_refl]

/-- Witness for C1 at concrete inputs. -/
theorem C1_put_identity_witness :
    put (.dict 1 [("a", .prim (.num 1))]) (.prim (.str "a"))
        (get (.dict 1 [("a", .prim (.num 1))]) (.prim (.str "a")))
      = .ok (.dict 1 [("a", .prim (.num 1))]) ∧
    put (.list 1 [.prim (.num 7)]) (.prim (.num 0))
        (get (.list 1 [.prim (.num 7)]) (.prim (.num 0)))
      = .ok (.list 1 [.prim (.num 7)]) := by
  constructor
  · exact C1_put_identity.1 1 [("a", .prim (.num 1))] (.prim (.str "a")) (by decide) (by decide)
  · have h := C1_put_identity.2 1 [.prim (.num 7)] 0 (by decide)
    simpa using h

/-! ### Association-list lemmas for the patch characterization -/

theorem dGet_eq_none_of_not_mem_keys {es : List (String × Val)} {k : String}
    (h : k ∉ getKeys es) : dGet es k = none := by
  cases hg : dGet es k with
  | none => rfl
  | some v =>
      exact absurd (mem_keys_of_hasKey (by simp [hasKey, hg])) h

theorem mem_keys_of_dGet_eq_some {es : List (String × Val)} {k : String} {v : Val}
    (h : dGet es k = some v) : k ∈ getKeys es :=
  mem_keys_of_hasKey (by simp [hasKey, h])

theorem dGet_append (xs ys : List (String × Val)) (k : String) :
    dGet (xs ++ ys) k
      = match dGet xs k with
        | some v => some v
        | none => dGet ys k := by
  induction xs with
  | nil => simp [dGet]
  | cons e rest ih =>
      by_cases he : e.1 = k
      · obtain ⟨k0, v0⟩ := e
        subst he
        simp [dGet]
      · obtain ⟨k0, v0⟩ := e
        simp only [List.cons_append, dGet, he, if_false]
        exact ih

theorem keys_filter_subset (pes : List (String × Val)) (pred : String × Val → Bool)
    {k : String} (h : k ∈ getKeys (pes.filter pred)) : k ∈ getKeys pes := by
  have hsub : List.Sublist (pes.filter pred) pes := List.filter_sublist pes
  have hmap : List.Sublist ((pes.filter pred).map Prod.fst) (pes.map Prod.fst) :=
    hsub.map Prod.fst
  exact hmap.subset h

theorem dGet_filter_none (pes : List (String × Val)) (pred : String × Val → Bool) {k : String}
    (h : dGet pes k = none) : dGet (pes.filter pred) k = none := by
  refine dGet_eq_none_of_not_mem_keys fun hmem => ?_
  have hk := hasKey_of_mem_keys (keys_filter_subset pes pred hmem)
  simp [hasKey, h] at hk

theorem dGet_filter_some (pes : List (String × Val)) (pred : String × Val → Bool)
    {k : String} {v : Val} (hnodup : (getKeys pes).Nodup) (h : dGet pes k = some v) :
    dGet (pes.filter pred) k = if pred (k, v) then some v else none := by
  induction pes with
  | nil => simp [dGet] at h
  | cons e rest ih =>
      obtain ⟨k0, v0⟩ := e
      simp only [getKeys, List.map_cons, List.nodup_cons] at hnodup
      by_cases he : k0 = k
      · subst he
        have hv : v0 = v := by
          have : dGet ((k0, v0) :: rest) k0 = some v0 := if_pos rfl
          rw [h] at this
          exact (Option.some.injEq _ _ ▸ this).symm
        subst hv
        have hrest : dGet (rest.filter pred) k0 = none :=
          dGet_eq_none_of_not_mem_keys fun hmem =>
            hnodup.1 (keys_filter_subset rest pred hmem)
        by_cases hp : pred (k0, v0) = true
        · simp only [List.filter_cons, hp, if_true]
          exact if_pos rfl
        · simp only [List.filter_cons, hp, Bool.false_eq_true, if_false]
          rw [hrest]
      · have hrest : dGet rest k = some v := by
          have : dGet ((k0, v0) :: rest) k = dGet rest k := if_neg he
          rw [h] at this
          exact this.symm
        by_cases hp : pred (k0, v0) = true
        · simp only [List.filter_cons, hp, if_true]
          rw [show dGet ((k0, v0) :: rest.filter pred) k = dGet (rest.filter pred) k
            from if_neg he]
          exact ih hnodup.2 hrest
        · simp only [List.filter_cons, hp, Bool.false_eq_true, if_false]
          exact ih hnodup.2 hrest

theorem keys_filterMap_subset (nes : List (String × Val)) (g : String → Val → Val)
    {k : String}
    (h : k ∈ getKeys (nes.filterMap (fun e =>
        if isNil (g e.1 e.2) then none else some (e.1, g e.1 e.2)))) : k ∈ getKeys nes := by
  induction nes with
  | nil => simp [getKeys] at h
  | cons e rest ih =>
      simp only [List.filterMap_cons] at h
      by_cases hv : isNil (g e.1 e.2) = true
      · simp only [hv, if_true] at h
        exact List.mem_cons_of_mem _ (ih h)
      · simp only [hv, Bool.false_eq_true, if_false, getKeys, List.map_cons,
          List.mem_cons] at h
        rcases h with h | h
        · simp [getKeys, h]
        · exact List.mem_cons_of_mem _ (ih h)

theorem dGet_filterMap_none (nes : List (String × Val)) (g : String → Val → Val) {k : String}
    (h : dGet nes k = none) :
    dGet (nes.filterMap (fun e =>
        if isNil (g e.1 e.2) then none else some (e.1, g e.1 e.2))) k = none := by
  refine dGet_eq_none_of_not_mem_keys fun hmem => ?_
  have hk := hasKey_of_mem_keys (keys_filterMap_subset nes g hmem)
  simp [hasKey, h] at hk

theorem dGet_filterMap_some (nes : List (String × Val)) (g : String → Val → Val)
    {k : String} {nv : Val} (hnodup : (getKeys nes).Nodup) (h : dGet nes k = some nv) :
    dGet (nes.filterMap (fun e =>
        if isNil (g e.1 e.2) then none else some (e.1, g e.1 e.2))) k
      = if isNil (g k nv) then none else some (g k nv) := by
  induction nes with
  | nil => simp [dGet] at h
  | cons e rest ih =>
      obtain ⟨k0, v0⟩ := e
      simp only [getKeys, List.map_cons, List.nodup_cons] at hnodup
      by_cases he : k0 = k
      · subst he
        have hv : v0 = nv := by
          have : dGet ((k0, v0) :: rest) k0 = some v0 := if_pos rfl
          rw [h] at this
          exact (Option.some.injEq _ _ ▸ this).symm
        subst hv
        have hrest : dGet (rest.filterMap (fun e =>
            if isNil (g e.1 e.2) then none else some (e.1, g e.1 e.2))) k0 = none :=
          dGet_eq_none_of_not_mem_keys fun hmem =>
            hnodup.1 (keys_filterMap_subset rest g hmem)
        by_cases hg : isNil (g k0 v0) = true
        · simp only [List.filterMap_cons, hg, if_true]
          rw [hrest]
        · simp only [List.filterMap_cons, hg, Bool.false_eq_true, if_false]
          rw [show dGet ((k0, g k0 v0) :: rest.filterMap (fun e =>
              if isNil (g e.1 e.2) then none else some (e.1, g e.1 e.2))) k0
            = some (g k0 v0) from if_pos rfl]
      · have hrest : dGet rest k = some nv := by
          have : dGet ((k0, v0) :: rest) k = dGet rest k := if_neg he
          rw [h] at this
          exact this.symm
        by_cases hg : isNil (g k0 v0) = true
        · simp only [List.filterMap_cons, hg, if_true]
          exact ih hnodup.2 hrest
        · simp only [List.filterMap_cons, hg, Bool.false_eq_true, if_false]
          rw [show dGet ((k0, g k0 v0) :: rest.filterMap (fun e =>
              if isNil (g e.1 e.2) then none else some (e.1, g e.1 e.2))) k
            = dGet (rest.filterMap (fun e =>
              if isNil (g e.1 e.2) then none else some (e.1, g e.1 e.2))) k from if_neg he]
          exact ih hnodup.2 hrest

theorem keys_filterMap_sublist (nes : List (String × Val)) (g : String → Val → Val) :
    List.Sublist (getKeys (nes.filterMap (fun e =>
        if isNil (g e.1 e.2) then none else some (e.1, g e.1 e.2)))) (getKeys nes) := by
  induction nes with
  | nil => simp [getKeys]
  | cons e rest ih =>
      by_cases hv : isNil (g e.1 e.2) = true
      · simp only [List.filterMap_cons, hv, if_true]
        exact ih.cons e.1
      · simp only [List.filterMap_cons, hv, Bool.false_eq_true, if_false, getKeys,
          List.map_cons]
        exact ih.cons₂ e.1

theorem nodup_keys_filter (pes : List (String × Val)) (pred : String × Val → Bool)
    (hp : (getKeys pes).Nodup) : (getKeys (pes.filter pred)).Nodup := by
  have hsub : List.Sublist ((pes.filter pred).map Prod.fst) (pes.map Prod.fst) :=
    (List.filter_sublist pes).map Prod.fst
  exact hp.sublist hsub

theorem nodup_keys_filterMap (nes : List (String × Val)) (g : String → Val → Val)
    (hn : (getKeys nes).Nodup) :
    (getKeys (nes.filterMap (fun e =>
        if isNil (g e.1 e.2) then none else some (e.1, g e.1 e.2)))).Nodup :=
  hn.sublist (keys_filterMap_sublist nes g)

theorem mem_keys_filter {pes : List (String × Val)} {pred : String × Val → Bool} {k : String}
    (h : k ∈ getKeys (pes.filter pred)) : ∃ v, (k, v) ∈ pes ∧ pred (k, v) = true := by
  simp only [getKeys, List.mem_map] at h
  obtain ⟨e, he, rfl⟩ := h
  have := List.mem_filter.mp he
  exact ⟨e.2, this.1, this.2⟩

/-- The `equalBy(prev, out, is)` gate certifies that both dicts have the same
key-value lookups, so returning `prev` loses nothing observable. -/
theorem equalBy_dict_lookup {i j : Nat} {pes os : List (String × Val)}
    (hp : (getKeys pes).Nodup) (ho : (getKeys os).Nodup)
    (h : equalBy (.dict i pes) (.dict j os) is = true) :
    ∀ k, dGet pes k = dGet os k := by
  intro k
  simp only [equalBy, isArray, isDict, Bool.false_eq_true, if_false, if_true,
    Bool.or_eq_true, Bool.and_eq_true] at h
  rcases h with h | ⟨-, h⟩
  · have := eq_of_is h
    injection this with h1 h2
    rw [h2]
  · simp only [everyDictPairBy, entriesOf, Bool.and_eq_true, beq_iff_eq,
      List.all_eq_true] at h
    obtain ⟨⟨hlen, hsub⟩, hval⟩ := h
    cases hm : dGet pes k with
    | some v =>
        have hmem : k ∈ getKeys pes := mem_keys_of_dGet_eq_some hm
        have hvk := hval k hmem
        have hosk := hsub k hmem
        obtain ⟨w, hw⟩ := Option.isSome_iff_exists.mp hosk
        have h1 : dGetVal pes k = v := by simp [dGetVal, hm]
        have h2 : dGetVal os k = w := by simp [dGetVal, hw]
        rw [h1, h2] at hvk
        rw [hw, eq_of_is hvk]
    | none =>
        have hnotmem : k ∉ getKeys pes := by
          intro hc
          have := hasKey_of_mem_keys hc
          simp [hasKey, hm] at this
        have hsubset : (getKeys pes).toFinset ⊆ (getKeys os).toFinset := by
          intro x hx
          rw [List.mem_toFinset] at *
          exact mem_keys_of_hasKey (hsub x hx)
        have hcardp : (getKeys pes).toFinset.card = (getKeys pes).length :=
          List.toFinset_card_of_nodup hp
        have hcardo : (getKeys os).toFinset.card = (getKeys os).length :=
          List.toFinset_card_of_nodup ho
        have hfeq : (getKeys pes).toFinset = (getKeys os).toFinset :=
          Finset.eq_of_subset_of_card_le hsubset (by omega)
        have : k ∉ getKeys os := by
          intro hc
          exact hnotmem (by
            rw [← List.mem_toFinset, hfeq, List.mem_toFinset] at hnotmem ⊢
            exact hc)
        exact (dGet_eq_none_of_not_mem_keys this).symm

/-- The per-key result of `patch` as the claim words it: every key of `next`
maps to `putAny(prev[key], next[key])` and every other key of `prev` keeps
its value, nullish results omitted.  Modelled from the claim (refinement
reference), to be compared with the lookups of the dict `patchDictBy`
builds. -/
def patchLookupSpec (pes nes : List (String × Val)) (k : String) : Option Val :=
  match dGet nes k with
  | some nv =>
      let v := putAny (dGetVal pes k) nv
      if isNil v then none else some v
  | none =>
      match dGet pes k with
      | some pv => if isNil pv then none else some pv
      | none => none

theorem patch_out_lookup (pes nes : List (String × Val))
    (hp : (getKeys pes).Nodup) (hn : (getKeys nes).Nodup) (k : String) :
    dGet (pes.filter (fun e => !(isNil e.2) && !(hasKey nes e.1)) ++
        nes.filterMap (fun e =>
          if isNil (putAny (dGetVal pes e.1) e.2) then none
          else some (e.1, putAny (dGetVal pes e.1) e.2))) k
      = patchLookupSpec pes nes k := by
  rw [dGet_append]
  cases hnk : dGet nes k with
  | some nv =>
      have h1 : dGet (pes.filter (fun e => !(isNil e.2) && !(hasKey nes e.1))) k = none := by
        cases hpk : dGet pes k with
        | none => exact dGet_filter_none _ _ hpk
        | some pv =>
            rw [dGet_filter_some _ _ hp hpk]
            have hh : hasKey nes k = true := by simp [hasKey, hnk]
            simp [hh]
      have h2 : dGet (nes.filterMap (fun e =>
          if isNil (putAny (dGetVal pes e.1) e.2) then none
          else some (e.1, putAny (dGetVal pes e.1) e.2))) k
          = if isNil (putAny (dGetVal pes k) nv) then none
            else some (putAny (dGetVal pes k) nv) := by
        simpa using dGet_filterMap_some nes (fun a b => putAny (dGetVal pes a) b) hn hnk
      simp only [h1]
      rw [h2]
      simp [patchLookupSpec, hnk]
  | none =>
      have h2 : dGet (nes.filterMap (fun e =>
          if isNil (putAny (dGetVal pes e.1) e.2) then none
          else some (e.1, putAny (dGetVal pes e.1) e.2))) k = none := by
        simpa using dGet_filterMap_none nes (fun a b => putAny (dGetVal pes a) b) hnk
      cases hpk : dGet pes k with
      | none =>
          rw [dGet_filter_none _ _ hpk]
          simp [patchLookupSpec, hnk, hpk, h2]
      | some pv =>
          rw [dGet_filter_some _ _ hp hpk]
          have hh : hasKey nes k = false := by simp [hasKey, hnk]
          by_cases hv : isNil pv = true
          · simp [hv, hh, patchLookupSpec, hnk, hpk, h2]
          · simp only [Bool.not_eq_true] at hv
            simp [hv, hh, patchLookupSpec, hnk, hpk, h2]

theorem nodup_patch_out (pes nes : List (String × Val))
    (hp : (getKeys pes).Nodup) (hn : (getKeys nes).Nodup) :
    (getKeys (pes.filter (fun e => !(isNil e.2) && !(hasKey nes e.1)) ++
        nes.filterMap (fun e =>
          if isNil (putAny (dGetVal pes e.1) e.2) then none
          else some (e.1, putAny (dGetVal pes e.1) e.2)))).Nodup := by
  have h1 := nodup_keys_filter pes (fun e => !(isNil e.2) && !(hasKey nes e.1)) hp
  have h2 : (getKeys (nes.filterMap (fun e =>
      if isNil (putAny (dGetVal pes e.1) e.2) then none
      else some (e.1, putAny (dGetVal pes e.1) e.2)))).Nodup := by
    simpa using nodup_keys_filterMap nes (fun a b => putAny (dGetVal pes a) b) hn
  have hdisj : ∀ k ∈ getKeys (pes.filter (fun e => !(isNil e.2) && !(hasKey nes e.1))),
      k ∉ getKeys (nes.filterMap (fun e =>
        if isNil (putAny (dGetVal pes e.1) e.2) then none
        else some (e.1, putAny (dGetVal pes e.1) e.2))) := by
    intro k hk1 hk2
    obtain ⟨v,imem, hpred⟩ := mem_keys_filter hk1
    simp only [Bool.and_eq_true, Bool.not_eq_true'] at hpred
    have hmem : k ∈ getKeys nes :=
      keys_filterMap_subset nes (fun a b => putAny (dGetVal pes a) b) (by simpa using hk2)
    have hcontra := hasKey_of_mem_keys hmem
    rw [hpred.2] at hcontra
    exact Bool.false_ne_true hcontra
  simp only [getKeys, List.map_append]
  exact List.Nodup.append h1 h2 (fun a ha hb => hdisj a ha hb)

theorem patchDictBy_putAny_lookup (i j : Nat) (pes nes : List (String × Val))
    (hp : (getKeys pes).Nodup) (hn : (getKeys nes).Nodup) (k : String) :
    dGet (entriesOf (patchDictBy (.dict i pes) (.dict j nes) putAny)) k
      = patchLookupSpec pes nes k := by
  have hout := patch_out_lookup pes nes hp hn k
  have hnodup_out := nodup_patch_out pes nes hp hn
  have hdef : patchDictBy (.dict i pes) (.dict j nes) putAny
      = if equalBy (.dict i pes)
            (.dict 0 (pes.filter (fun e => !(isNil e.2) && !(hasKey nes e.1)) ++
              nes.filterMap (fun e =>
                if isNil (putAny (dGetVal pes e.1) e.2) then none
                else some (e.1, putAny (dGetVal pes e.1) e.2)))) is
        then .dict i pes
        else .dict 0 (pes.filter (fun e => !(isNil e.2) && !(hasKey nes e.1)) ++
              nes.filterMap (fun e =>
                if isNil (putAny (dGetVal pes e.1) e.2) then none
                else some (e.1, putAny (dGetVal pes e.1) e.2))) := rfl
  rw [hdef]
  by_cases hgate : equalBy (.dict i pes)
      (.dict 0 (pes.filter (fun e => !(isNil e.2) && !(hasKey nes e.1)) ++
        nes.filterMap (fun e =>
          if isNil (putAny (dGetVal pes e.1) e.2) then none
          else some (e.1, putAny (dGetVal pes e.1) e.2)))) is = true
  · rw [if_pos hgate]
    show dGet pes k = _
    rw [equalBy_dict_lookup hp hnodup_out hgate k]
    exact hout
  · rw [if_neg hgate]
    exact hout

theorem isDict_patchDictBy (i j : Nat) (pes nes : List (String × Val)) (f : Val → Val → Val) :
    isDict (patchDictBy (.dict i pes) (.dict j nes) f) = true := by
  simp only [patchDictBy]
  split <;> simp [isDict]

/-! ### Claim C3 -/

/-- C3 counterexample: the claim's characterization fails when `prev` and
`next` are the same reference holding a nullish entry — the `is` shortcut of
`patchTwoDicts` returns `prev` as-is, keeping a nullish value at a key of
`next` where the claim demands omission. -/
theorem C3_counterexample :
    patch (.dict 1 [("a", .prim .null)]) (.dict 1 [("a", .prim .null)])
        = .ok (.dict 1 [("a", .prim .null)]) ∧
    dGet (entriesOf (.dict 1 [("a", .prim .null)])) "a" = some (.prim .null) ∧
    patchLookupSpec [("a", .prim .null)] [("a", .prim .null)] "a" = none := by decide

/-- C3 amended: for Dicts `prev` and `next` that are not the same reference,
`patch(prev, next)` is a Dict whose lookup at every key is exactly the
claim's characterization — keys of `next` carrying
`putAny(prev[key], next[key])`, other keys of `prev` keeping their value,
nullish results omitted; when `next` is `prev` itself, `prev` is returned
as-is (possibly retaining nullish entries).  In particular
`patch({a:1,b:2}, {b:3,c:4})` yields `{a:1,b:3,c:4}`. -/
theorem C3_patch_characterization :
    (∀ (ip : Nat) (es : List (String × Val)) (jn : Nat) (fs : List (String × Val)),
        (getKeys es).Nodup → (getKeys fs).Nodup →
        is (.dict ip es) (.dict jn fs) = false →
        ∃ r, patch (.dict ip es) (.dict jn fs) = .ok r ∧ isDict r = true ∧
          ∀ k, dGet (entriesOf r) k = patchLookupSpec es fs k) ∧
    (∀ (ip : Nat) (es : List (String × Val)) (jn : Nat) (fs : List (String × Val)),
        is (.dict ip es) (.dict jn fs) = true →
        patch (.dict ip es) (.dict jn fs) = .ok (.dict ip es)) ∧
    patch (.dict 1 [("a", .prim (.num 1)), ("b", .prim (.num 2))])
        (.dict 2 [("b", .prim (.num 3)), ("c", .prim (.num 4))])
      = .ok (.dict 0 [("a", .prim (.num 1)), ("b", .prim (.num 3)), ("c", .prim (.num 4))]) := by
  refine ⟨?_, ?_, by decide⟩
  · intro ip es jn fs hp hn his
    refine ⟨patchDictBy (.dict ip es) (.dict jn fs) putAny, ?_, ?_, ?_⟩
    · simp [patch, patchTwoDicts, alwaysDict, isNil, isDict, bind_ok, pure_ok, his]
    · exact isDict_patchDictBy ip jn es fs putAny
    · exact patchDictBy_putAny_lookup ip jn es fs hp hn
  · intro ip es jn fs his
    simp [patch, patchTwoDicts, alwaysDict, isNil, isDict, bind_ok, pure_ok, his, eq_of_is his]
    intro hc
    simp [is_refl] at hc

/-- Witness for C3 at concrete inputs. -/
theorem C3_patch_characterization_witness :
    (∃ r, patch (.dict 1 [("a", .prim (.num 1)), ("b", .prim (.num 2))])
        (.dict 2 [("b", .prim (.num 3)), ("c", .prim (.num 4))]) = .ok r ∧
      isDict r = true ∧
      ∀ k, dGet (entriesOf r) k
        = patchLookupSpec [("a", .prim (.num 1)), ("b", .prim (.num 2))]
            [("b", .prim (.num 3)), ("c", .prim (.num 4))] k) ∧
    patch (.dict 7 [("x", .prim (.num 1))]) (.dict 7 [("x", .prim (.num 1))])
      = .ok (.dict 7 [("x", .prim (.num 1))]) :=
  ⟨C3_patch_characterization.1 1 [("a", .prim (.num 1)), ("b", .prim (.num 2))]
      2 [("b", .prim (.num 3)), ("c", .prim (.num 4))] (by decide) (by decide) (by decide),
   C3_patch_characterization.2.1 7 [("x", .prim (.num 1))] 7 [("x", .prim (.num 1))]
      (by decide)⟩

/-! ### Claim C9: infrastructure -/

/-- The reflexive-transitive subterm relation on values: a subterm is the
value itself, an element of an array in it, or an entry value of a dict in
it.  A subterm of an input is exactly a piece of the input passed through by
reference. -/
inductive SubVal : Val → Val → Prop where
  | refl (v : Val) : SubVal v v
  | inList {d v : Val} {i : Nat} {items : List Val} :
      v ∈ items → SubVal d v → SubVal d (.list i items)
  | inDict {d v : Val} {i : Nat} {es : List (String × Val)} {k : String} :
      (k, v) ∈ es → SubVal d v → SubVal d (.dict i es)

/-- The C9 invariant: every dict node inside `out` either is a subterm of one
of the inputs (passed through by reference) or carries no nullish entry
value (it was written by the library, which omits nil). -/
def DictsFrom (ins : List Val) (out : Val) : Prop :=
  ∀ (i : Nat) (es : List (String × Val)), SubVal (.dict i es) out →
    (∃ w ∈ ins, SubVal (.dict i es) w) ∨ (∀ e ∈ es, isNil e.2 = false)

theorem SubVal.trans {a b c : Val} (h1 : SubVal a b) (h2 : SubVal b c) : SubVal a c := by
  induction h2 with
  | refl => exact h1
  | inList hm _ ih => exact .inList hm ih
  | inDict hm _ ih => exact .inDict hm ih

theorem dictsFrom_inl {ins : List Val} {out : Val}
    (hw : ∃ w ∈ ins, SubVal out w) : DictsFrom ins out := by
  obtain ⟨w, hmem, hsub⟩ := hw
  exact fun i es h => Or.inl ⟨w, hmem, h.trans hsub⟩

theorem dictsFrom_prim {ins : List Val} {q : Prim} : DictsFrom ins (.prim q) := by
  intro i es h
  cases h

theorem dictsFrom_atom {ins : List Val} {j : Nat} : DictsFrom ins (.atom j) := by
  intro i es h
  cases h

theorem dictsFrom_drop_empty {z : Nat} {ins : List Val} {out : Val}
    (h : DictsFrom (Val.dict z [] :: ins) out) : DictsFrom ins out := by
  intro i es hsub
  rcases h i es hsub with ⟨w, hmem, hw⟩ | hnil
  · rcases List.mem_cons.mp hmem with rfl | hmem
    · cases hw with
      | refl => exact Or.inr (by simp)
      | inDict hm _ => simp at hm
    · exact Or.inl ⟨w, hmem, hw⟩
  · exact Or.inr hnil

theorem dGet_mem {es : List (String × Val)} {k : String} {v : Val}
    (h : dGet es k = some v) : (k, v) ∈ es := by
  induction es with
  | nil => simp [dGet] at h
  | cons e rest ih =>
      obtain ⟨k0, v0⟩ := e
      by_cases he : k0 = k
      · subst he
        have : some v0 = some v := by rw [← h]; exact (if_pos rfl).symm
        injection this with hv
        subst hv
        exact List.mem_cons_self _ _
      · have : dGet rest k = some v := by rw [← h]; exact (if_neg he).symm
        exact List.mem_cons_of_mem _ (ih this)

theorem sub_dGetVal {i z : Nat} {es pes : List (String × Val)} {k : String}
    (h : SubVal (.dict i es) (dGetVal pes k)) : SubVal (.dict i es) (.dict z pes) := by
  cases hg : dGet pes k with
  | none =>
      rw [dGetVal, hg] at h
      cases h
  | some u =>
      rw [dGetVal, hg] at h
      exact .inDict (dGet_mem hg) h

theorem sub_get {i : Nat} {es : List (String × Val)} (prev key : Val)
    (h : SubVal (.dict i es) (get prev key)) : SubVal (.dict i es) prev := by
  cases prev with
  | dict z pes =>
      simp only [get, isNil, Bool.false_eq_true, if_false] at h
      exact sub_dGetVal h
  | list z items =>
      simp only [get, isNil, Bool.false_eq_true, if_false] at h
      cases hki : keyIndex key with
      | some idx =>
          simp only [getListItem, hki] at h
          by_cases hlt : idx < items.length
          · have hmem : items.getD idx (.prim .undefined) ∈ items := by
              rw [List.getD_eq_getElem items _ hlt]
              exact List.getElem_mem hlt
            exact .inList hmem h
          · rw [List.getD_eq_default items _ (by omega)] at h
            cases h
      | none =>
          simp only [getListItem, hki] at h
          by_cases hl : toKey key = "length"
          · rw [if_pos hl] at h
            cases h
          · rw [if_neg hl] at h
            cases h
  | atom z =>
      simp only [get, isNil, Bool.false_eq_true, if_false] at h
      cases h
  | prim p =>
      cases p with
      | str s =>
          simp only [get, isNil, Bool.false_eq_true, if_false] at h
          cases hki : keyIndex key with
          | some idx =>
              simp only [getStringProp, hki] at h
              by_cases hlt : idx < s.data.length
              · rw [if_pos hlt] at h
                cases h
              · rw [if_neg hlt] at h
                cases h
          | none =>
              simp only [getStringProp, hki] at h
              by_cases hl : toKey key = "length"
              · rw [if_pos hl] at h
                cases h
              · rw [if_neg hl] at h
                cases h
      | num q =>
          simp only [get, isNil, Bool.false_eq_true, if_false] at h
          cases h
      | nan =>
          simp only [get, isNil, Bool.false_eq_true, if_false] at h
          cases h
      | bool b =>
          simp only [get, isNil, Bool.false_eq_true, if_false] at h
          cases h
      | null =>
          simp only [get, isNil, if_true] at h
          cases h
      | undefined =>
          simp only [get, isNil, if_true] at h
          cases h

theorem sub_getInList {i : Nat} {es : List (String × Val)} (prev : Val) (ks : List Val)
    (h : SubVal (.dict i es) (getInList prev ks)) : SubVal (.dict i es) prev := by
  induction ks generalizing prev with
  | nil => exact h
  | cons k rest ih => exact sub_get prev k (ih (get prev k) h)

mutual

theorem putAny_dictsFrom : ∀ p n : Val, DictsFrom [p, n] (putAny p n)
  | p, .prim q => by
      rw [putAny.eq_def]
      by_cases his : is p (.prim q) = true
      · rw [if_pos his]
        exact dictsFrom_inl ⟨p, by simp, .refl p⟩
      · rw [if_neg his]
        cases p <;> exact dictsFrom_inl ⟨.prim q, by simp, .refl _⟩
  | p, .atom j => by
      rw [putAny.eq_def]
      by_cases his : is p (.atom j) = true
      · rw [if_pos his]
        exact dictsFrom_inl ⟨p, by simp, .refl p⟩
      · rw [if_neg his]
        cases p <;> exact dictsFrom_inl ⟨.atom j, by simp, .refl _⟩
  | p, .list j ns => by
      rw [putAny.eq_def]
      by_cases his : is p (.list j ns) = true
      · rw [if_pos his]
        exact dictsFrom_inl ⟨p, by simp, .refl p⟩
      · rw [if_neg his]
        cases p with
        | list ip ps =>
            show DictsFrom _
              (if equalBy (.list ip ps) (Val.list 0 (putListPairs ps ns)) is
               then Val.list ip ps else Val.list 0 (putListPairs ps ns))
            by_cases hgate :
                equalBy (.list ip ps) (Val.list 0 (putListPairs ps ns)) is = true
            · rw [if_pos hgate]
              exact dictsFrom_inl ⟨.list ip ps, by simp, .refl _⟩
            · rw [if_neg hgate]
              intro i es hsub
              cases hsub with
              | inList hv hsubv =>
                  rename_i v
                  rcases putListPairs_dictsFrom ps ns v hv i es hsubv with
                    ⟨w, hw, hsw⟩ | ⟨w, hw, hsw⟩ | hnil
                  · exact Or.inl ⟨.list ip ps, by simp, .inList hw hsw⟩
                  · exact Or.inl ⟨.list j ns, by simp, .inList hw hsw⟩
                  · exact Or.inr hnil
        | dict ip pes => exact dictsFrom_inl ⟨.list j ns, by simp, .refl _⟩
        | prim pp => exact dictsFrom_inl ⟨.list j ns, by simp, .refl _⟩
        | atom ia => exact dictsFrom_inl ⟨.list j ns, by simp, .refl _⟩
  | p, .dict j nes => by
      rw [putAny.eq_def]
      by_cases his : is p (.dict j nes) = true
      · rw [if_pos his]
        exact dictsFrom_inl ⟨p, by simp, .refl p⟩
      · rw [if_neg his]
        cases p with
        | dict ip pes =>
            show DictsFrom _
              (if equalBy (.dict ip pes) (Val.dict 0 (putDictEntries pes nes)) is
               then Val.dict ip pes else Val.dict 0 (putDictEntries pes nes))
            by_cases hgate :
                equalBy (.dict ip pes) (Val.dict 0 (putDictEntries pes nes)) is = true
            · rw [if_pos hgate]
              exact dictsFrom_inl ⟨.dict ip pes, by simp, .refl _⟩
            · rw [if_neg hgate]
              intro i es hsub
              cases hsub with
              | refl =>
                  exact Or.inr fun e he => (putDictEntries_dictsFrom pes nes e he).1
              | inDict hv hsubv =>
                  rename_i v k
                  rcases (putDictEntries_dictsFrom pes nes (k, v) hv).2 i es hsubv with
                    ⟨w, hw, hsw⟩ | ⟨w, hw, hsw⟩ | hnil
                  · exact Or.inl ⟨.dict ip pes, by simp, .inDict hw hsw⟩
                  · exact Or.inl ⟨.dict j nes, by simp, .inDict hw hsw⟩
                  · exact Or.inr hnil
        | list ip ps => exact dictsFrom_inl ⟨.dict j nes, by simp, .refl _⟩
        | prim pp => exact dictsFrom_inl ⟨.dict j nes, by simp, .refl _⟩
        | atom ia => exact dictsFrom_inl ⟨.dict j nes, by simp, .refl _⟩

theorem putListPairs_dictsFrom : ∀ (ps xs : List Val), ∀ v ∈ putListPairs ps xs,
    ∀ (i : Nat) (es : List (String × Val)), SubVal (.dict i es) v →
      (∃ w ∈ ps, SubVal (.dict i es) w) ∨ (∃ w ∈ xs, SubVal (.dict i es) w) ∨
      (∀ e ∈ es, isNil e.2 = false)
  | ps, [] => by
      intro v hv
      simp [putListPairs] at hv
  | ps, x :: rest => by
      intro v hv i es hsub
      rw [putListPairs] at hv
      rcases List.mem_cons.mp hv with rfl | hv
      · rcases putAny_dictsFrom (ps.headD (.prim .undefined)) x i es hsub with
          ⟨w, hw, hsw⟩ | hnil
        · simp only [List.mem_cons, List.mem_singleton, List.not_mem_nil, or_false]
            at hw
          rcases hw with rfl | heq
          · cases ps with
            | nil =>
                simp only [List.headD_nil] at hsw
                cases hsw
            | cons a as =>
                simp only [List.headD_cons] at hsw
                exact Or.inl ⟨a, List.mem_cons_self a as, hsw⟩
          · exact Or.inr (Or.inl ⟨x, List.mem_cons_self x rest, heq ▸ hsw⟩)
        · exact Or.inr (Or.inr hnil)
      · rcases putListPairs_dictsFrom (ps.tailD []) rest v hv i es hsub with
          ⟨w, hw, hsw⟩ | ⟨w, hw, hsw⟩ | hnil
        · cases ps with
          | nil => simp [List.tailD] at hw
          | cons a as =>
              simp only [List.tailD_cons] at hw
              exact Or.inl ⟨w, List.mem_cons_of_mem a hw, hsw⟩
        · exact Or.inr (Or.inl ⟨w, List.mem_cons_of_mem x hw, hsw⟩)
        · exact Or.inr (Or.inr hnil)

theorem putDictEntries_dictsFrom : ∀ (pes nes : List (String × Val)),
    ∀ e ∈ putDictEntries pes nes,
      isNil e.2 = false ∧ ∀ (i : Nat) (es : List (String × Val)), SubVal (.dict i es) e.2 →
        (∃ w ∈ pes, SubVal (.dict i es) w.2) ∨ (∃ w ∈ nes, SubVal (.dict i es) w.2) ∨
        (∀ f ∈ es, isNil f.2 = false)
  | pes, [] => by
      intro e he
      simp [putDictEntries] at he
  | pes, (k, nv) :: rest => by
      intro e he
      rw [putDictEntries] at he
      by_cases hnil : isNil (putAny (dGetVal pes k) nv) = true
      · rw [if_pos hnil, List.nil_append] at he
        rcases putDictEntries_dictsFrom pes rest e he with ⟨h1, h2⟩
        refine ⟨h1, fun i es hsub => ?_⟩
        rcases h2 i es hsub with ⟨w, hw, hsw⟩ | ⟨w, hw, hsw⟩ | hnil2
        · exact Or.inl ⟨w, hw, hsw⟩
        · exact Or.inr (Or.inl ⟨w, List.mem_cons_of_mem _ hw, hsw⟩)
        · exact Or.inr (Or.inr hnil2)
      · rw [if_neg hnil, List.singleton_append] at he
        rcases List.mem_cons.mp he with rfl | he
        · refine ⟨by simpa using hnil, fun i es hsub => ?_⟩
          rcases putAny_dictsFrom (dGetVal pes k) nv i es hsub with
            ⟨w, hw, hsw⟩ | hnil2
          · simp only [List.mem_cons, List.mem_singleton, List.not_mem_nil, or_false]
              at hw
            rcases hw with rfl | heq
            · cases hg : dGet pes k with
              | none =>
                  rw [dGetVal, hg] at hsw
                  cases hsw
              | some u =>
                  rw [dGetVal, hg] at hsw
                  exact Or.inl ⟨(k, u), dGet_mem hg, hsw⟩
            · exact Or.inr (Or.inl ⟨(k, nv), List.mem_cons_self _ _, heq ▸ hsw⟩)
          · exact Or.inr (Or.inr hnil2)
        · rcases putDictEntries_dictsFrom pes rest e he with ⟨h1, h2⟩
          refine ⟨h1, fun i es hsub => ?_⟩
          rcases h2 i es hsub with ⟨w, hw, hsw⟩ | ⟨w, hw, hsw⟩ | hnil2
          · exact Or.inl ⟨w, hw, hsw⟩
          · exact Or.inr (Or.inl ⟨w, List.mem_cons_of_mem _ hw, hsw⟩)
          · exact Or.inr (Or.inr hnil2)

end

theorem toDict_cases (p : Val) : toDict p = p ∨ toDict p = .dict 0 [] := by
  by_cases h : isDict p = true
  · exact Or.inl (by simp [toDict, h])
  · exact Or.inr (by simp [toDict, h])

theorem dictsFrom_empty_dict {ins : List Val} {z : Nat} : DictsFrom ins (.dict z []) := by
  intro i es h
  cases h with
  | refl => exact Or.inr (by simp)
  | inDict hm _ => simp at hm

theorem mem_entriesOf_toDict {p : Val} {e : String × Val}
    (h : e ∈ entriesOf (toDict p)) : ∃ ip pes, p = .dict ip pes ∧ e ∈ pes := by
  cases p with
  | dict ip pes =>
      refine ⟨ip, pes, rfl, ?_⟩
      simpa [toDict, isDict, entriesOf] using h
  | prim q => simp [toDict, isDict, entriesOf] at h
  | list i items => simp [toDict, isDict, entriesOf] at h
  | atom i => simp [toDict, isDict, entriesOf] at h

theorem dictsFrom_toDict {ins : List Val} {p : Val} (hp : p ∈ ins) :
    DictsFrom ins (toDict p) := by
  rcases toDict_cases p with hd | hd <;> rw [hd]
  · exact dictsFrom_inl ⟨p, hp, .refl p⟩
  · exact dictsFrom_empty_dict

theorem sub_toDict {i : Nat} {es : List (String × Val)} {p v : Val} {k : String}
    (hmem : (k, v) ∈ entriesOf (toDict p)) (hsub : SubVal (.dict i es) v) :
    SubVal (.dict i es) p := by
  obtain ⟨ip, pes, rfl, hm⟩ := mem_entriesOf_toDict hmem
  exact .inDict hm hsub

/-- The head entry of a `patchDictBy`-style loop transfers the invariant of
its computed value into the invariant of the whole entry list. -/
theorem entryOk_of_dictsFrom {pes : List (String × Val)} {k : String} {nv v : Val}
    {rest : List (String × Val)}
    (hnil : isNil v = false)
    (hdf : DictsFrom [dGetVal pes k, nv] v) :
    isNil (k, v).2 = false ∧
      ∀ (i : Nat) (es : List (String × Val)), SubVal (.dict i es) (k, v).2 →
        (∃ w ∈ pes, SubVal (.dict i es) w.2) ∨
        (∃ w ∈ (k, nv) :: rest, SubVal (.dict i es) w.2) ∨
        (∀ f ∈ es, isNil f.2 = false) := by
  refine ⟨hnil, fun i es hsub => ?_⟩
  rcases hdf i es hsub with ⟨w, hw, hsw⟩ | hnil2
  · simp only [List.mem_cons, List.mem_singleton, List.not_mem_nil, or_false] at hw
    rcases hw with rfl | heq
    · cases hg : dGet pes k with
      | none =>
          rw [dGetVal, hg] at hsw
          cases hsw
      | some u =>
          rw [dGetVal, hg] at hsw
          exact Or.inl ⟨(k, u), dGet_mem hg, hsw⟩
    · exact Or.inr (Or.inl ⟨(k, nv), List.mem_cons_self _ _, heq ▸ hsw⟩)
  · exact Or.inr (Or.inr hnil2)

theorem entryOk_widen {pes : List (String × Val)} {hd : String × Val}
    {rest : List (String × Val)} {e : String × Val}
    (h : isNil e.2 = false ∧
      ∀ (i : Nat) (es : List (String × Val)), SubVal (.dict i es) e.2 →
        (∃ w ∈ pes, SubVal (.dict i es) w.2) ∨
        (∃ w ∈ rest, SubVal (.dict i es) w.2) ∨
        (∀ f ∈ es, isNil f.2 = false)) :
    isNil e.2 = false ∧
      ∀ (i : Nat) (es : List (String × Val)), SubVal (.dict i es) e.2 →
        (∃ w ∈ pes, SubVal (.dict i es) w.2) ∨
        (∃ w ∈ hd :: rest, SubVal (.dict i es) w.2) ∨
        (∀ f ∈ es, isNil f.2 = false) := by
  refine ⟨h.1, fun i es hsub => ?_⟩
  rcases h.2 i es hsub with ⟨w, hw, hsw⟩ | ⟨w, hw, hsw⟩ | hnil
  · exact Or.inl ⟨w, hw, hsw⟩
  · exact Or.inr (Or.inl ⟨w, List.mem_cons_of_mem _ hw, hsw⟩)
  · exact Or.inr (Or.inr hnil)

/-- The non-dict-`next` branch of `mergeTwo` (the `next` side coerces to an
empty dict, so only the nullish-filtered passthrough of `prev` remains). -/
theorem mergeTwo_nonDict_dictsFrom (p n : Val) :
    DictsFrom [p, n]
      (if equalBy (toDict p)
          (Val.dict 0 ((entriesOf (toDict p)).filter (fun e => !(isNil e.2)))) is
       then toDict p
       else Val.dict 0 ((entriesOf (toDict p)).filter (fun e => !(isNil e.2)))) := by
  by_cases hgate : equalBy (toDict p)
      (Val.dict 0 ((entriesOf (toDict p)).filter (fun e => !(isNil e.2)))) is = true
  · rw [if_pos hgate]
    exact dictsFrom_toDict (by simp)
  · rw [if_neg hgate]
    intro i es hsub
    cases hsub with
    | refl =>
        refine Or.inr fun e he => ?_
        have := (List.mem_filter.mp he).2
        simpa using this
    | inDict hv hsubv =>
        have hm := List.mem_filter.mp hv
        exact Or.inl ⟨p, by simp, sub_toDict hm.1 hsubv⟩

mutual

theorem mergeTwo_dictsFrom : ∀ p n : Val, DictsFrom [p, n] (mergeTwo p n)
  | p, .prim q => by
      rw [mergeTwo.eq_def]
      by_cases his : is p (.prim q) = true
      · rw [if_pos his]
        exact dictsFrom_inl ⟨p, by simp, .refl p⟩
      · rw [if_neg his]
        exact mergeTwo_nonDict_dictsFrom p (.prim q)
  | p, .atom j => by
      rw [mergeTwo.eq_def]
      by_cases his : is p (.atom j) = true
      · rw [if_pos his]
        exact dictsFrom_inl ⟨p, by simp, .refl p⟩
      · rw [if_neg his]
        exact mergeTwo_nonDict_dictsFrom p (.atom j)
  | p, .list j items => by
      rw [mergeTwo.eq_def]
      by_cases his : is p (.list j items) = true
      · rw [if_pos his]
        exact dictsFrom_inl ⟨p, by simp, .refl p⟩
      · rw [if_neg his]
        exact mergeTwo_nonDict_dictsFrom p (.list j items)
  | p, .dict j nes => by
      rw [mergeTwo.eq_def]
      by_cases his : is p (.dict j nes) = true
      · rw [if_pos his]
        exact dictsFrom_inl ⟨p, by simp, .refl p⟩
      · rw [if_neg his]
        show DictsFrom _
          (if equalBy (toDict p)
              (Val.dict 0 ((entriesOf (toDict p)).filter
                  (fun e => !(isNil e.2) && !(hasKey nes e.1)) ++
                mergeEntries (entriesOf (toDict p)) nes)) is
           then toDict p
           else Val.dict 0 ((entriesOf (toDict p)).filter
                  (fun e => !(isNil e.2) && !(hasKey nes e.1)) ++
                mergeEntries (entriesOf (toDict p)) nes))
        by_cases hgate : equalBy (toDict p)
            (Val.dict 0 ((entriesOf (toDict p)).filter
                (fun e => !(isNil e.2) && !(hasKey nes e.1)) ++
              mergeEntries (entriesOf (toDict p)) nes)) is = true
        · rw [if_pos hgate]
          exact dictsFrom_toDict (by simp)
        · rw [if_neg hgate]
          intro i es hsub
          cases hsub with
          | refl =>
              refine Or.inr fun e he => ?_
              rcases List.mem_append.mp he with he | he
              · have := (List.mem_filter.mp he).2
                simp only [Bool.and_eq_true, Bool.not_eq_true'] at this
                exact this.1
              · exact (mergeEntries_dictsFrom (entriesOf (toDict p)) nes e he).1
          | inDict hv hsubv =>
              rename_i v k
              rcases List.mem_append.mp hv with hv | hv
              · have hm := List.mem_filter.mp hv
                exact Or.inl ⟨p, by simp, sub_toDict hm.1 hsubv⟩
              · rcases (mergeEntries_dictsFrom (entriesOf (toDict p)) nes (k, v) hv).2
                    i es hsubv with ⟨w, hw, hsw⟩ | ⟨w, hw, hsw⟩ | hnil
                · exact Or.inl ⟨p, by simp, sub_toDict hw hsw⟩
                · exact Or.inl ⟨.dict j nes, by simp, .inDict hw hsw⟩
                · exact Or.inr hnil

theorem mergeEntries_dictsFrom : ∀ (pes nes : List (String × Val)),
    ∀ e ∈ mergeEntries pes nes,
      isNil e.2 = false ∧ ∀ (i : Nat) (es : List (String × Val)), SubVal (.dict i es) e.2 →
        (∃ w ∈ pes, SubVal (.dict i es) w.2) ∨ (∃ w ∈ nes, SubVal (.dict i es) w.2) ∨
        (∀ f ∈ es, isNil f.2 = false)
  | pes, [] => by
      intro e he
      simp [mergeEntries] at he
  | pes, (k, .dict iv ev) :: rest => by
      intro e he
      rw [mergeEntries] at he
      by_cases hnil : isNil (mergeTwo (dGetVal pes k) (.dict iv ev)) = true
      · rw [if_pos hnil, List.nil_append] at he
        exact entryOk_widen (mergeEntries_dictsFrom pes rest e he)
      · rw [if_neg hnil, List.singleton_append] at he
        rcases List.mem_cons.mp he with rfl | he
        · exact entryOk_of_dictsFrom (by simpa using hnil)
            (mergeTwo_dictsFrom (dGetVal pes k) (.dict iv ev))
        · exact entryOk_widen (mergeEntries_dictsFrom pes rest e he)
  | pes, (k, .prim pv) :: rest => by
      intro e he
      simp only [mergeEntries] at he
      by_cases hnil : isNil (putAny (dGetVal pes k) (.prim pv)) = true
      · rw [if_pos hnil, List.nil_append] at he
        exact entryOk_widen (mergeEntries_dictsFrom pes rest e he)
      · rw [if_neg hnil, List.singleton_append] at he
        rcases List.mem_cons.mp he with rfl | he
        · exact entryOk_of_dictsFrom (by simpa using hnil)
            (putAny_dictsFrom (dGetVal pes k) (.prim pv))
        · exact entryOk_widen (mergeEntries_dictsFrom pes rest e he)
  | pes, (k, .list iv lv) :: rest => by
      intro e he
      simp only [mergeEntries] at he
      by_cases hnil : isNil (putAny (dGetVal pes k) (.list iv lv)) = true
      · rw [if_pos hnil, List.nil_append] at he
        exact entryOk_widen (mergeEntries_dictsFrom pes rest e he)
      · rw [if_neg hnil, List.singleton_append] at he
        rcases List.mem_cons.mp he with rfl | he
        · exact entryOk_of_dictsFrom (by simpa using hnil)
            (putAny_dictsFrom (dGetVal pes k) (.list iv lv))
        · exact entryOk_widen (mergeEntries_dictsFrom pes rest e he)
  | pes, (k, .atom iv) :: rest => by
      intro e he
      simp only [mergeEntries] at he
      by_cases hnil : isNil (putAny (dGetVal pes k) (.atom iv)) = true
      · rw [if_pos hnil, List.nil_append] at he
        exact entryOk_widen (mergeEntries_dictsFrom pes rest e he)
      · rw [if_neg hnil, List.singleton_append] at he
        rcases List.mem_cons.mp he with rfl | he
        · exact entryOk_of_dictsFrom (by simpa using hnil)
            (putAny_dictsFrom (dGetVal pes k) (.atom iv))
        · exact entryOk_widen (mergeEntries_dictsFrom pes rest e he)

end

theorem sub_itemsOf {x l : Val} (hm : x ∈ itemsOf l) {i : Nat} {es : List (String × Val)}
    (hs : SubVal (.dict i es) x) : SubVal (.dict i es) l := by
  cases l with
  | list z items => exact .inList hm hs
  | prim q => simp [itemsOf] at hm
  | dict z pes => simp [itemsOf] at hm
  | atom z => simp [itemsOf] at hm

theorem sub_entriesOf {k : String} {x d : Val} (hm : (k, x) ∈ entriesOf d) {i : Nat}
    {es : List (String × Val)} (hs : SubVal (.dict i es) x) : SubVal (.dict i es) d := by
  cases d with
  | dict z pes => exact .inDict hm hs
  | prim q => simp [entriesOf] at hm
  | list z items => simp [entriesOf] at hm
  | atom z => simp [entriesOf] at hm

theorem dictsFrom_widen {ins ins2 : List Val} {out : Val}
    (h : DictsFrom ins out) (hsub : ∀ w ∈ ins, w ∈ ins2) : DictsFrom ins2 out := by
  intro i es hs
  rcases h i es hs with ⟨w, hw, hsw⟩ | hnil
  · exact Or.inl ⟨w, hsub w hw, hsw⟩
  · exact Or.inr hnil

theorem assocAtIndex_dictsFrom {l key v out : Val}
    (h : assocAtIndex l key v = .ok out) : DictsFrom [l, v] out := by
  by_cases hnat : isNatural key = true
  · simp only [assocAtIndex, hnat, if_true] at h
    by_cases hb : (itemsOf l).length < natOfKey key
    · rw [if_pos hb] at h
      cases h
    · rw [if_neg hb] at h
      by_cases hs : natOfKey key < (itemsOf l).length ∧
          is ((itemsOf l).getD (natOfKey key) (.prim .undefined)) v = true
      · rw [if_pos hs] at h
        injection h with h
        subst h
        exact dictsFrom_inl ⟨l, by simp, .refl l⟩
      · rw [if_neg hs] at h
        injection h with h
        subst h
        intro i es hsub
        cases hsub with
        | inList hm hsubv =>
            by_cases hlt : natOfKey key < (itemsOf l).length
            · rw [if_pos hlt] at hm
              rcases List.mem_or_eq_of_mem_set hm with hm | rfl
              · exact Or.inl ⟨l, by simp, sub_itemsOf hm hsubv⟩
              · exact Or.inl ⟨_, by simp, hsubv⟩
            · rw [if_neg hlt] at hm
              rcases List.mem_append.mp hm with hm | hm
              · exact Or.inl ⟨l, by simp, sub_itemsOf hm hsubv⟩
              · rw [List.mem_singleton] at hm
                subst hm
                exact Or.inl ⟨_, by simp, hsubv⟩
  · simp only [assocAtIndex, hnat, Bool.false_eq_true, if_false] at h
    cases h

theorem assocAtKey_dictsFrom (d key v : Val) : DictsFrom [d, v] (assocAtKey d key v) := by
  have hout : DictsFrom [d, v] (Val.dict 0
      ((entriesOf d).filter (fun e => e.1 ≠ toKey key && !(isNil e.2)) ++
        (if isNil v then [] else [(toKey key, v)]))) := by
    intro i es hsub
    cases hsub with
    | refl =>
        refine Or.inr fun e he => ?_
        rcases List.mem_append.mp he with he | he
        · have := (List.mem_filter.mp he).2
          simp only [Bool.and_eq_true, Bool.not_eq_true'] at this
          exact this.2
        · by_cases hv : isNil v = true
          · rw [if_pos hv] at he
            simp at he
          · rw [if_neg hv] at he
            rw [List.mem_singleton] at he
            subst he
            simpa using hv
    | inDict hv hsubv =>
        rename_i w k
        rcases List.mem_append.mp hv with hv | hv
        · exact Or.inl ⟨d, by simp, sub_entriesOf (List.mem_filter.mp hv).1 hsubv⟩
        · by_cases hnv : isNil v = true
          · rw [if_pos hnv] at hv
            simp at hv
          · rw [if_neg hnv] at hv
            rw [List.mem_singleton] at hv
            have h2 : w = v := congrArg Prod.snd hv
            exact Or.inl ⟨v, by simp, h2 ▸ hsubv⟩
  rw [assocAtKey]
  by_cases hnil : isNil v = true
  · rw [if_pos hnil]
    by_cases hk : hasKey (entriesOf d) (toKey key) = true
    · rw [if_pos hk]
      exact hout
    · rw [if_neg hk]
      exact dictsFrom_inl ⟨d, by simp, .refl d⟩
  · rw [if_neg hnil]
    by_cases hisv : is (dGetVal (entriesOf d) (toKey key)) v = true
    · rw [if_pos hisv]
      exact dictsFrom_inl ⟨d, by simp, .refl d⟩
    · rw [if_neg hisv]
      exact hout

theorem alwaysDict_ok {v d : Val} (h : alwaysDict v = .ok d) : d = v ∨ d = .dict 0 [] := by
  by_cases hnil : isNil v = true
  · rw [alwaysDict, if_pos hnil] at h
    injection h with h
    exact Or.inr h.symm
  · rw [alwaysDict, if_neg hnil] at h
    by_cases hd : isDict v = true
    · rw [if_pos hd] at h
      injection h with h
      exact Or.inl h.symm
    · rw [if_neg hd] at h
      cases h

theorem dictsFrom_coerce {p n prev next out : Val}
    (hp : p = prev ∨ p = .dict 0 []) (hn : n = next ∨ n = .dict 0 [])
    (h : DictsFrom [p, n] out) : DictsFrom [prev, next] out := by
  intro i es hsub
  rcases h i es hsub with ⟨w, hw, hsw⟩ | hnil
  · simp only [List.mem_cons, List.mem_singleton, List.not_mem_nil, or_false] at hw
    rcases hw with rfl | rfl
    · rcases hp with rfl | rfl
      · exact Or.inl ⟨w, by simp, hsw⟩
      · cases hsw with
        | refl => exact Or.inr (by simp)
        | inDict hm _ => simp at hm
    · rcases hn with rfl | rfl
      · exact Or.inl ⟨w, by simp, hsw⟩
      · cases hsw with
        | refl => exact Or.inr (by simp)
        | inDict hm _ => simp at hm
  · exact Or.inr hnil

theorem assoc_dictsFrom {prev key next out : Val}
    (h : assoc prev key next = .ok out) : DictsFrom [prev, next] out := by
  by_cases harr : isArray prev = true
  · rw [assoc, if_pos harr] at h
    exact assocAtIndex_dictsFrom h
  · rw [assoc, if_neg harr] at h
    cases hd : alwaysDict prev with
    | error e =>
        rw [hd, bind_error] at h
        cases h
    | ok d =>
        rw [hd, bind_ok, pure_ok] at h
        injection h with h
        subst h
        exact dictsFrom_coerce (alwaysDict_ok hd) (Or.inl rfl)
          (assocAtKey_dictsFrom d key next)

theorem assocInAt_dictsFrom : ∀ (path : List Val) (prev next out : Val),
    assocInAt prev path next = .ok out → DictsFrom [prev, next] out
  | [], prev, next, out => by
      intro h
      rw [assocInAt] at h
      injection h with h
      subst h
      exact dictsFrom_inl ⟨next, by simp, .refl next⟩
  | [k], prev, next, out => by
      intro h
      rw [assocInAt] at h
      exact assoc_dictsFrom h
  | k :: k2 :: rest, prev, next, out => by
      intro h
      simp only [assocInAt] at h
      cases hin : assocInAt (get prev k) (k2 :: rest) next with
      | error e =>
          rw [hin, bind_error] at h
          cases h
      | ok inner =>
          rw [hin, bind_ok] at h
          have h1 := assoc_dictsFrom h
          have h2 := assocInAt_dictsFrom (k2 :: rest) (get prev k) next inner hin
          intro i es hsub
          rcases h1 i es hsub with ⟨w, hw, hsw⟩ | hnil
          · simp only [List.mem_cons, List.mem_singleton, List.not_mem_nil, or_false] at hw
            rcases hw with rfl | rfl
            · exact Or.inl ⟨w, by simp, hsw⟩
            · rcases h2 i es hsw with ⟨u, hu, hsu⟩ | hnil2
              · simp only [List.mem_cons, List.mem_singleton, List.not_mem_nil, or_false] at hu
                rcases hu with rfl | rfl
                · exact Or.inl ⟨prev, by simp, sub_get prev k hsu⟩
                · exact Or.inl ⟨u, by simp, hsu⟩
              · exact Or.inr hnil2
          · exact Or.inr hnil

theorem patchDictBy_dictsFrom (p n : Val) : DictsFrom [p, n] (patchDictBy p n putAny) := by
  rw [patchDictBy]
  by_cases hgate : equalBy p (Val.dict 0
      ((entriesOf p).filter (fun e => !(isNil e.2) && !(hasKey (entriesOf n) e.1)) ++
        (entriesOf n).filterMap (fun e =>
          if isNil (putAny (dGetVal (entriesOf p) e.1) e.2) then none
          else some (e.1, putAny (dGetVal (entriesOf p) e.1) e.2)))) is = true
  · rw [if_pos hgate]
    exact dictsFrom_inl ⟨p, by simp, .refl p⟩
  · rw [if_neg hgate]
    intro i es hsub
    cases hsub with
    | refl =>
        refine Or.inr fun e he => ?_
        rcases List.mem_append.mp he with he | he
        · have := (List.mem_filter.mp he).2
          simp only [Bool.and_eq_true, Bool.not_eq_true'] at this
          exact this.1
        · obtain ⟨e0, he0, heq⟩ := List.mem_filterMap.mp he
          by_cases hni : isNil (putAny (dGetVal (entriesOf p) e0.1) e0.2) = true
          · rw [if_pos hni] at heq
            cases heq
          · rw [if_neg hni] at heq
            injection heq with heq
            subst heq
            simpa using hni
    | inDict hv hsubv =>
        rename_i w k
        rcases List.mem_append.mp hv with hv | hv
        · exact Or.inl ⟨p, by simp, sub_entriesOf (List.mem_filter.mp hv).1 hsubv⟩
        · obtain ⟨e0, he0, heq⟩ := List.mem_filterMap.mp hv
          by_cases hni : isNil (putAny (dGetVal (entriesOf p) e0.1) e0.2) = true
          · rw [if_pos hni] at heq
            cases heq
          · rw [if_neg hni] at heq
            injection heq with heq
            have heq2 : putAny (dGetVal (entriesOf p) e0.1) e0.2 = w := congrArg Prod.snd heq
            subst heq2
            rcases putAny_dictsFrom (dGetVal (entriesOf p) e0.1) e0.2 i es hsubv with
              ⟨u, hu, hsu⟩ | hnil
            · simp only [List.mem_cons, List.mem_singleton, List.not_mem_nil, or_false] at hu
              rcases hu with rfl | heq3
              · cases hg : dGet (entriesOf p) e0.1 with
                | none =>
                    rw [dGetVal, hg] at hsu
                    cases hsu
                | some t =>
                    rw [dGetVal, hg] at hsu
                    exact Or.inl ⟨p, by simp, sub_entriesOf (dGet_mem hg) hsu⟩
              · exact Or.inl ⟨n, by simp, sub_entriesOf
                  (show (e0.1, e0.2) ∈ entriesOf n from he0) (heq3 ▸ hsu)⟩
            · exact Or.inr hnil

theorem patch_dictsFrom {prev next out : Val} (h : patch prev next = .ok out) :
    DictsFrom [prev, next] out := by
  rw [patch, patchTwoDicts] at h
  cases hp : alwaysDict prev with
  | error e =>
      rw [hp, bind_error] at h
      cases h
  | ok p =>
      rw [hp, bind_ok] at h
      cases hn : alwaysDict next with
      | error e =>
          rw [hn, bind_error] at h
          cases h
      | ok n =>
          rw [hn, bind_ok, pure_ok] at h
          injection h with h
          subst h
          refine dictsFrom_coerce (alwaysDict_ok hp) (alwaysDict_ok hn) ?_
          by_cases his : is p n = true
          · rw [if_pos his]
            exact dictsFrom_inl ⟨p, by simp, .refl p⟩
          · rw [if_neg his]
            exact patchDictBy_dictsFrom p n

theorem merge_dictsFrom {prev next out : Val} (h : merge prev next = .ok out) :
    DictsFrom [prev, next] out := by
  rw [merge, mergeTwoDicts] at h
  cases hp : alwaysDict prev with
  | error e =>
      rw [hp, bind_error] at h
      cases h
  | ok p =>
      rw [hp, bind_ok] at h
      cases hn : alwaysDict next with
      | error e =>
          rw [hn, bind_error] at h
          cases h
      | ok n =>
          rw [hn, bind_ok, pure_ok] at h
          injection h with h
          subst h
          exact dictsFrom_coerce (alwaysDict_ok hp) (alwaysDict_ok hn)
            (mergeTwo_dictsFrom p n)

theorem put_dictsFrom {prev key value out : Val} (h : put prev key value = .ok out) :
    DictsFrom [prev, value] out := by
  by_cases hprim : isPrimitive key = true
  · rw [put, if_pos hprim] at h
    have h1 := assoc_dictsFrom h
    have h2 := putAny_dictsFrom (get prev key) value
    intro i es hsub
    rcases h1 i es hsub with ⟨w, hw, hsw⟩ | hnil
    · simp only [List.mem_cons, List.mem_singleton, List.not_mem_nil, or_false] at hw
      rcases hw with rfl | rfl
      · exact Or.inl ⟨w, by simp, hsw⟩
      · rcases h2 i es hsw with ⟨u, hu, hsu⟩ | hnil2
        · simp only [List.mem_cons, List.mem_singleton, List.not_mem_nil, or_false] at hu
          rcases hu with rfl | rfl
          · exact Or.inl ⟨prev, by simp, sub_get prev key hsu⟩
          · exact Or.inl ⟨u, by simp, hsu⟩
        · exact Or.inr hnil2
    · exact Or.inr hnil
  · rw [put, if_neg hprim] at h
    cases h

theorem putIn_dictsFrom {prev path next out : Val} (h : putIn prev path next = .ok out) :
    DictsFrom [prev, next] out := by
  cases path with
  | prim q => simp only [putIn] at h; cases h
  | dict z pes => simp only [putIn] at h; cases h
  | atom z => simp only [putIn] at h; cases h
  | list z ks =>
      rw [putIn] at h
      by_cases hall : ks.all isPrimitive = true
      · rw [if_pos hall] at h
        rw [assocIn] at h
        by_cases hempty : ks.isEmpty = true
        · rw [if_pos hempty] at h
          injection h with h
          subst h
          have hks : ks = [] := List.isEmpty_iff.mp hempty
          subst hks
          exact putAny_dictsFrom prev next
        · rw [if_neg hempty] at h
          have h1 := assocInAt_dictsFrom ks prev (putAny (getInList prev ks) next) out h
          have h2 := putAny_dictsFrom (getInList prev ks) next
          intro i es hsub
          rcases h1 i es hsub with ⟨w, hw, hsw⟩ | hnil
          · simp only [List.mem_cons, List.mem_singleton, List.not_mem_nil, or_false] at hw
            rcases hw with rfl | rfl
            · exact Or.inl ⟨w, by simp, hsw⟩
            · rcases h2 i es hsw with ⟨u, hu, hsu⟩ | hnil2
              · simp only [List.mem_cons, List.mem_singleton, List.not_mem_nil,
                  or_false] at hu
                rcases hu with rfl | rfl
                · exact Or.inl ⟨prev, by simp, sub_getInList prev ks hsu⟩
                · exact Or.inl ⟨u, by simp, hsu⟩
              · exact Or.inr hnil2
          · exact Or.inr hnil
      · rw [if_neg hall] at h
        cases h

/-! ### Claim C9 -/

/-- C9: every Dict newly constructed by `put`, `putIn`, `patch` or `merge`
contains no nullish value: each dict node of the output is either a subterm
of one of the operation's inputs (a Dict passed through by reference, which
may still hold nullish entries) or has only non-nullish entry values.  In
particular `put({a:1}, 'a', undefined)` yields a fresh empty Dict. -/
theorem C9_nil_omission :
    (∀ prev key value out : Val, put prev key value = .ok out →
        DictsFrom [prev, value] out) ∧
    (∀ prev path next out : Val, putIn prev path next = .ok out →
        DictsFrom [prev, next] out) ∧
    (∀ prev next out : Val, patch prev next = .ok out → DictsFrom [prev, next] out) ∧
    (∀ prev next out : Val, merge prev next = .ok out → DictsFrom [prev, next] out) ∧
    put (.dict 1 [("a", .prim (.num 1))]) (.prim (.str "a")) (.prim .undefined)
      = .ok (.dict 0 []) :=
  ⟨fun _ _ _ _ h => put_dictsFrom h,
   fun _ _ _ _ h => putIn_dictsFrom h,
   fun _ _ _ h => patch_dictsFrom h,
   fun _ _ _ h => merge_dictsFrom h,
   by decide⟩

/-- Witness for C9 at a concrete input. -/
theorem C9_nil_omission_witness :
    DictsFrom [.dict 1 [("a", .prim (.num 1))], .prim .undefined] (.dict 0 []) :=
  C9_nil_omission.1 (.dict 1 [("a", .prim (.num 1))]) (.prim (.str "a")) (.prim .undefined)
    (.dict 0 []) (by decide)

end Emerge
